import Mathlib

/-!
# The raw byte stack of Boost.JSON: `raw_stack::reserve` and `raw_stack::grow`

A shallow embedding of `include/boost/json/detail/impl/raw_stack.ipp`.

* `std::size_t` values are natural numbers; the three places where the source
  computes on them (`max_size() - capacity_`, `capacity_ * 2`, `capacity_ + n`)
  are reduced modulo `2 ^ w`, `w` being the width of `std::size_t`.
* A pointer is a natural number naming a block of storage, `0` being the null
  pointer; memory maps a block and an offset to a byte.
* The memory resource is outside the file: its `allocate` is a function of the
  calls made so far and of the requested size, answering with a pointer or
  with the exception it throws.
  A successful `allocate` is taken to hand out storage of the size asked for,
  which is the contract of the resource.
* An exception leaves the object as it was when the exception was thrown, so an
  operation yields an `Outcome` together with the state it leaves behind.
-/

namespace RawStack

/-! ## Data model -/

/-- What the stack does to the memory resource and to memory, in program order. -/
inductive Event where
  /-- `sp_->allocate(bytes)` returned the pointer `p`. -/
  | allocated (bytes p : Nat)
  /-- `sp_->allocate(bytes)` threw the exception `e`. -/
  | allocate_failed (bytes e : Nat)
  /-- `std::memcpy(dst, src, n)`. -/
  | memcpy (dst src n : Nat)
  /-- `sp_->deallocate(p, bytes)`. -/
  | deallocate (p bytes : Nat)
  deriving DecidableEq, Repr

/-- The memory resource behind `sp_`. Its `allocate` is given the events so far
and the byte count; it returns a pointer or throws. -/
structure memory_resource where
  allocate : List Event → Nat → Except Nat Nat

/-- The constants `raw_stack.ipp` takes from `raw_stack.hpp`, which is not among
the sources: the width `w` of `std::size_t`, the value of `max_size()`, a
`std::size_t`, and `min_capacity_`. -/
structure Config where
  w : Nat
  max_size : Nat
  min_capacity_ : Nat
  max_size_lt : max_size < 2 ^ w

/-- The members of `raw_stack` together with the memory `base_` points into and
the events up to now. -/
structure State where
  sp_ : memory_resource
  base_ : Nat
  size_ : Nat
  capacity_ : Nat
  mem : Nat → Nat → Nat
  trace : List Event

/-- How a call ends: it returns, `detail::throw_length_error` throws, or the
exception `e` of `sp_->allocate` leaves the function. -/
inductive Outcome where
  | returned
  | length_error
  | allocate_error (e : Nat)
  deriving DecidableEq, Repr

/-! ## Unsigned arithmetic on `std::size_t` -/

/-- Subtraction of `std::size_t` values: `a - b` modulo `2 ^ w`. -/
def usub (w a b : Nat) : Nat := (a + 2 ^ w - b) % 2 ^ w

/-- Addition of `std::size_t` values: `a + b` modulo `2 ^ w`. -/
def uadd (w a b : Nat) : Nat := (a + b) % 2 ^ w

/-- Multiplication of `std::size_t` values: `a * b` modulo `2 ^ w`. -/
def umul (w a b : Nat) : Nat := (a * b) % 2 ^ w

/-- The `int` constant `~1`, which is `-2`, converted to `std::size_t`. -/
def not_one (w : Nat) : Nat := 2 ^ w - 2

/-! ## The operations -/

/-- Memory after `std::memcpy(dst, src, n)`. -/
def memcpy (mem : Nat → Nat → Nat) (dst src n : Nat) : Nat → Nat → Nat :=
  fun p i => if p = dst ∧ i < n then mem src i else mem p i

/-- Lines 30 to 47 of `raw_stack::reserve`: the value of `bytes` that is passed
to `allocate`, from the request `bytes`. -/
def new_capacity (P : Config) (s : State) (bytes : Nat) : Nat :=
  let bytes := if bytes < P.min_capacity_ then P.min_capacity_ else bytes
  -- 2x growth factor
  if s.capacity_ ≤ usub P.w P.max_size s.capacity_ then
    let hint := umul P.w s.capacity_ 2 &&& not_one P.w
    if bytes < hint then hint else bytes
  else
    P.max_size

/-- Lines 51 to 57 of `raw_stack::reserve`: after `allocate` returned `base`
for `bytes` bytes. -/
def install (s : State) (base bytes : Nat) : State :=
  let s := { s with trace := s.trace ++ [Event.allocated bytes base] }
  let s :=
    if s.base_ ≠ 0 then
      { s with
        mem := memcpy s.mem base s.base_ s.size_
        trace := s.trace ++
          [Event.memcpy base s.base_ s.size_, Event.deallocate s.base_ s.capacity_] }
    else s
  { s with base_ := base, capacity_ := bytes }

/-- The function `raw_stack::reserve(std::size_t bytes)`. -/
def reserve (P : Config) (bytes : Nat) (s : State) : Outcome × State :=
  if bytes ≤ s.capacity_ then (Outcome.returned, s)
  else if bytes > P.max_size then (Outcome.length_error, s)
  else
    let bytes := new_capacity P s bytes
    match s.sp_.allocate s.trace bytes with
    | Except.error e =>
      (Outcome.allocate_error e,
        { s with trace := s.trace ++ [Event.allocate_failed bytes e] })
    | Except.ok base => (Outcome.returned, install s base bytes)

/-- The function `raw_stack::grow(std::size_t n)`. -/
def grow (P : Config) (n : Nat) (s : State) : Outcome × State :=
  if n > usub P.w P.max_size s.capacity_ then (Outcome.length_error, s)
  else reserve P (uadd P.w s.capacity_ n) s

/-- Modelled from the spec: the constructor of `raw_stack` is in
`raw_stack.hpp`, which is not among the sources. "The stack is created bound to
a memory resource with `capacity = 0, base = null`"; no byte is in use. -/
def fresh (sp : memory_resource) (mem : Nat → Nat → Nat) : State :=
  { sp_ := sp, base_ := 0, size_ := 0, capacity_ := 0, mem := mem, trace := [] }

/-- A call of one of the two operations. -/
inductive Call where
  | reserve (bytes : Nat)
  | grow (n : Nat)
  deriving DecidableEq, Repr

/-- Outcome and state of one call. -/
def call (P : Config) : Call → State → Outcome × State
  | Call.reserve bytes, s => reserve P bytes s
  | Call.grow n, s => grow P n s

/-- The state after a sequence of calls, each made on the state the previous
one left, whether it returned or threw. -/
def run (P : Config) : List Call → State → State
  | [], s => s
  | c :: cs, s => run P cs (call P c s).2

/-! ## Observations on traces -/

/-- The allocations a trace leaves outstanding: pointer and size of every
block that was allocated and not deallocated since. -/
def outstanding (t : List Event) : List (Nat × Nat) :=
  t.foldl
    (fun live e =>
      match e with
      | Event.allocated bytes p => (p, bytes) :: live
      | Event.deallocate p bytes => live.erase (p, bytes)
      | _ => live)
    []

/-- Whether an event is a call of `allocate`, successful or not. -/
def Event.is_allocate : Event → Bool
  | Event.allocated _ _ => true
  | Event.allocate_failed _ _ => true
  | _ => false

/-- Whether an event is a call of `deallocate`. -/
def Event.is_deallocate : Event → Bool
  | Event.deallocate _ _ => true
  | _ => false

/-- Whether an event is a `memcpy`. -/
def Event.is_memcpy : Event → Bool
  | Event.memcpy _ _ _ => true
  | _ => false

/-! ## Sample configurations and resources, for concrete evaluation -/

/-- A 64-bit `std::size_t`, `max_size() = 2^32 - 1`, `min_capacity_ = 64`. -/
def config64 : Config :=
  { w := 64, max_size := 2 ^ 32 - 1, min_capacity_ := 64, max_size_lt := by norm_num }

/-- A resource that numbers its blocks 1, 2, 3, ... and never fails. -/
def bump : memory_resource :=
  { allocate := fun t _ => Except.ok (t.length + 1) }

/-- A resource whose `allocate` always throws the exception `7`. -/
def exhausted : memory_resource :=
  { allocate := fun _ _ => Except.error 7 }

/-- Memory in which byte `i` of block `p` is `p + i + 1`. -/
def sample_mem : Nat → Nat → Nat := fun p i => p + i + 1

/-- A fresh stack on the resource `bump`. -/
def fresh_state : State := fresh bump sample_mem

/-- A stack holding 3 bytes in a block of 8 bytes at pointer 5. -/
def used_state : State :=
  { sp_ := bump, base_ := 5, size_ := 3, capacity_ := 8, mem := sample_mem,
    trace := [Event.allocated 8 5] }

/-- The stack of `used_state` on the resource `exhausted`. -/
def starved_state : State := { used_state with sp_ := exhausted }

/-- A 64-bit `std::size_t` with `max_size()` the largest value of the type and
`min_capacity_ = 1024`. -/
def config_max : Config :=
  { w := 64, max_size := 2 ^ 64 - 1, min_capacity_ := 1024, max_size_lt := by norm_num }

/-- The state invariant of the data model: `size <= capacity <= max_size`. -/
@[reducible] def invariant (P : Config) (s : State) : Prop :=
  s.size_ ≤ s.capacity_ ∧ s.capacity_ ≤ P.max_size

/-- The events a call adds to the trace of the state it is made on. -/
def emitted (P : Config) (c : Call) (s : State) : List Event :=
  (call P c s).2.trace.drop s.trace.length

/-- One step of `outstanding`: the blocks outstanding after the event `e`, from
those outstanding before it. -/
def live_step (live : List (Nat × Nat)) : Event → List (Nat × Nat)
  | Event.allocated bytes p => (p, bytes) :: live
  | Event.deallocate p bytes => live.erase (p, bytes)
  | _ => live

/-- Whether every `deallocate` of a trace names, with its size, a block that is
outstanding when it is issued, `live` being the blocks outstanding at the start
of the trace. A block deallocated is no longer outstanding, so a second
`deallocate` of it does not pass. -/
def disciplined_from : List (Nat × Nat) → List Event → Bool
  | _, [] => true
  | live, e :: t =>
    (match e with
      | Event.deallocate p bytes => decide ((p, bytes) ∈ live)
      | _ => true) && disciplined_from (live_step live e) t

/-- The matched allocate/deallocate discipline of a whole trace. -/
def disciplined (t : List Event) : Bool := disciplined_from [] t

/-- A memory resource whose `allocate`, when it returns, never returns the null
pointer. -/
def never_null (sp : memory_resource) : Prop :=
  ∀ t n b, sp.allocate t n = Except.ok b → b ≠ 0

/-- The predicate "`base` is null if and only if `capacity` is 0". -/
@[reducible] def base_consistent (s : State) : Prop :=
  s.base_ = 0 ↔ s.capacity_ = 0

/-- A number with its low bit cleared, in the words of the spec: "masked to an
even value (clears the low bit)". -/
def clear_low_bit (x : Nat) : Nat := x - x % 2

/-- The growth hint in the words of the spec, in exact arithmetic: "if
`capacity <= max_size - capacity`, hint = `(capacity * 2)` masked to an even
value; otherwise hint = `max_size`". -/
def spec_growth_hint (P : Config) (capacity : Nat) : Nat :=
  if capacity ≤ P.max_size - capacity then clear_low_bit (capacity * 2) else P.max_size

/-- A memory resource whose `allocate` always returns, with a pointer that is
not null. -/
def always_succeeds (sp : memory_resource) : Prop :=
  ∀ t n, ∃ b, sp.allocate t n = Except.ok b ∧ b ≠ 0

/-- The number of calls of `allocate` among events. -/
def allocate_calls (t : List Event) : Nat := (t.filter Event.is_allocate).length

/-- The scenario of the spec, first step: `reserve(10)` on a fresh stack. -/
def scenario_1 (P : Config) (sp : memory_resource) (mem : Nat → Nat → Nat) : State :=
  (reserve P 10 (fresh sp mem)).2

/-- The scenario of the spec, second step: then `grow(100)`. -/
def scenario_2 (P : Config) (sp : memory_resource) (mem : Nat → Nat → Nat) : State :=
  (grow P 100 (scenario_1 P sp mem)).2

/-- Whether an event is an `allocate` that returned. -/
def Event.is_allocated : Event → Bool
  | Event.allocated _ _ => true
  | _ => false

/-- The number of reallocations in a trace: the calls of `allocate` that
returned. -/
def reallocations (t : List Event) : Nat := (t.filter Event.is_allocated).length

/-- The variant of lines 30 to 47 of `raw_stack::reserve` with plain doubling
capped at `max_size()`: the same statements with `auto hint = capacity_ * 2;`,
without the mask. -/
def new_capacity_plain (P : Config) (s : State) (bytes : Nat) : Nat :=
  let bytes := if bytes < P.min_capacity_ then P.min_capacity_ else bytes
  if s.capacity_ ≤ usub P.w P.max_size s.capacity_ then
    let hint := umul P.w s.capacity_ 2
    if bytes < hint then hint else bytes
  else
    P.max_size

/-- The variant of `raw_stack::reserve` with plain doubling. -/
def reserve_plain (P : Config) (bytes : Nat) (s : State) : Outcome × State :=
  if bytes ≤ s.capacity_ then (Outcome.returned, s)
  else if bytes > P.max_size then (Outcome.length_error, s)
  else
    let bytes := new_capacity_plain P s bytes
    match s.sp_.allocate s.trace bytes with
    | Except.error e =>
      (Outcome.allocate_error e,
        { s with trace := s.trace ++ [Event.allocate_failed bytes e] })
    | Except.ok base => (Outcome.returned, install s base bytes)

/-- The variant of `raw_stack::grow` that calls the variant of `reserve`. -/
def grow_plain (P : Config) (n : Nat) (s : State) : Outcome × State :=
  if n > usub P.w P.max_size s.capacity_ then (Outcome.length_error, s)
  else reserve_plain P (uadd P.w s.capacity_ n) s

/-- The outcomes of a sequence of calls, each made on the state the previous
one left. -/
def outcomes (P : Config) : List Call → State → List Outcome
  | [], _ => []
  | c :: cs, s => (call P c s).1 :: outcomes P cs (call P c s).2

/-- The claim of amortized growth, in the words of the spec: "given a trace of
N sequential `grow(1)` calls starting from capacity 0, the total number of
reallocations performed is O(log N)". Some constant `C` bounds the number of
calls of `allocate` by `C * (log2 N + 1)`, whatever the constants, the memory
resource and `N`, when every call returns. -/
def amortized_log_bound : Prop :=
  ∃ C : Nat, ∀ (P : Config) (sp : memory_resource) (mem : Nat → Nat → Nat) (N : Nat),
    (∀ o ∈ outcomes P (List.replicate N (Call.grow 1)) (fresh sp mem), o = Outcome.returned) →
    allocate_calls (run P (List.replicate N (Call.grow 1)) (fresh sp mem)).trace
      ≤ C * (Nat.log 2 N + 1)

/-- A configuration with room for `N` doublings: `std::size_t` has `N + 1`
bits, `max_size()` is its largest value and `min_capacity_` is 1. -/
def roomy_config (N : Nat) : Config :=
  { w := N + 1, max_size := 2 ^ (N + 1) - 1, min_capacity_ := 1,
    max_size_lt := Nat.sub_lt (Nat.two_pow_pos _) Nat.one_pos }

/-! ## Arithmetic lemmas -/

theorem usub_eq (w a b : Nat) (hb : b ≤ a) (ha : a < 2 ^ w) : usub w a b = a - b := by
  unfold usub
  have h : a + 2 ^ w - b = (a - b) + 2 ^ w := by omega
  rw [h, Nat.add_mod_right, Nat.mod_eq_of_lt]
  omega

theorem uadd_eq (w a b : Nat) (h : a + b < 2 ^ w) : uadd w a b = a + b := by
  unfold uadd
  exact Nat.mod_eq_of_lt h

theorem hint_le (w c : Nat) : umul w c 2 &&& not_one w ≤ c * 2 := by
  unfold umul
  exact le_trans Nat.and_le_left (Nat.mod_le _ _)

/-- The amount asked of `allocate` covers the request, exceeds the old capacity
and, when `min_capacity_` is within `max_size()`, stays within `max_size()`. -/
theorem new_capacity_bounds (P : Config) (s : State) (bytes : Nat)
    (h1 : s.capacity_ < bytes) (h2 : bytes ≤ P.max_size) :
    bytes ≤ new_capacity P s bytes ∧ s.capacity_ < new_capacity P s bytes ∧
      (P.min_capacity_ ≤ P.max_size → new_capacity P s bytes ≤ P.max_size) := by
  have hu : usub P.w P.max_size s.capacity_ = P.max_size - s.capacity_ :=
    usub_eq P.w P.max_size s.capacity_ (by omega) P.max_size_lt
  have hh := hint_le P.w s.capacity_
  unfold new_capacity
  simp only [hu]
  split_ifs <;> omega

/-! ## What `install` and `reserve` do to each field -/

@[simp] theorem install_capacity (s : State) (b n : Nat) : (install s b n).capacity_ = n := rfl

@[simp] theorem install_base (s : State) (b n : Nat) : (install s b n).base_ = b := rfl

@[simp] theorem install_size (s : State) (b n : Nat) : (install s b n).size_ = s.size_ := by
  by_cases h : s.base_ = 0 <;> simp [install, h]

@[simp] theorem install_sp (s : State) (b n : Nat) : (install s b n).sp_ = s.sp_ := by
  by_cases h : s.base_ = 0 <;> simp [install, h]

theorem install_mem (s : State) (b n : Nat) :
    (install s b n).mem = if s.base_ ≠ 0 then memcpy s.mem b s.base_ s.size_ else s.mem := by
  by_cases h : s.base_ = 0 <;> simp [install, h]

theorem install_trace (s : State) (b n : Nat) :
    (install s b n).trace = s.trace ++ (Event.allocated n b ::
      if s.base_ ≠ 0 then [Event.memcpy b s.base_ s.size_, Event.deallocate s.base_ s.capacity_]
      else []) := by
  by_cases h : s.base_ = 0 <;> simp [install, h]

/-- The four ways through `reserve`. -/
theorem reserve_cases (P : Config) (bytes : Nat) (s : State) :
    (bytes ≤ s.capacity_ ∧ reserve P bytes s = (Outcome.returned, s)) ∨
    (s.capacity_ < bytes ∧ P.max_size < bytes ∧ reserve P bytes s = (Outcome.length_error, s)) ∨
    (s.capacity_ < bytes ∧ bytes ≤ P.max_size ∧ ∃ e,
      s.sp_.allocate s.trace (new_capacity P s bytes) = Except.error e ∧
      reserve P bytes s = (Outcome.allocate_error e,
        { s with trace := s.trace ++ [Event.allocate_failed (new_capacity P s bytes) e] })) ∨
    (s.capacity_ < bytes ∧ bytes ≤ P.max_size ∧ ∃ b,
      s.sp_.allocate s.trace (new_capacity P s bytes) = Except.ok b ∧
      reserve P bytes s = (Outcome.returned, install s b (new_capacity P s bytes))) := by
  unfold reserve
  by_cases h1 : bytes ≤ s.capacity_
  · left; simp [h1]
  · by_cases h2 : bytes > P.max_size
    · right; left; simp [h1, h2]; omega
    · right; right
      cases h : s.sp_.allocate s.trace (new_capacity P s bytes) with
      | error e => left; simp [h1, h2, h]; omega
      | ok b => right; simp [h1, h2, h]; omega

theorem reserve_size (P : Config) (bytes : Nat) (s : State) :
    (reserve P bytes s).2.size_ = s.size_ := by
  rcases reserve_cases P bytes s with ⟨_, e⟩ | ⟨_, _, e⟩ | ⟨_, _, x, _, e⟩ | ⟨_, _, b, _, e⟩ <;>
    simp [e]

theorem reserve_returned_ge (P : Config) (bytes : Nat) (s : State)
    (hok : (reserve P bytes s).1 = Outcome.returned) :
    bytes ≤ (reserve P bytes s).2.capacity_ := by
  rcases reserve_cases P bytes s with ⟨h, e⟩ | ⟨_, _, e⟩ | ⟨_, _, x, _, e⟩ | ⟨h1, h2, b, _, e⟩ <;>
    rw [e] at hok ⊢ <;> simp at hok ⊢
  · exact h
  · exact (new_capacity_bounds P s bytes h1 h2).1

@[simp] theorem call_reserve (P : Config) (bytes : Nat) (s : State) :
    call P (Call.reserve bytes) s = reserve P bytes s := rfl

@[simp] theorem call_grow (P : Config) (n : Nat) (s : State) :
    call P (Call.grow n) s = grow P n s := rfl

/-- The four ways through a call of `reserve` or `grow`: nothing happens, the
length error is thrown before anything is done, `allocate` throws, or a block
larger than the old capacity is installed. -/
theorem call_shape (P : Config) (c : Call) (s : State) :
    call P c s = (Outcome.returned, s) ∨
    call P c s = (Outcome.length_error, s) ∨
    (∃ n e, s.sp_.allocate s.trace n = Except.error e ∧
      call P c s = (Outcome.allocate_error e,
        { s with trace := s.trace ++ [Event.allocate_failed n e] })) ∨
    (∃ n b, s.capacity_ < n ∧ (P.min_capacity_ ≤ P.max_size → n ≤ P.max_size) ∧
      s.sp_.allocate s.trace n = Except.ok b ∧
      call P c s = (Outcome.returned, install s b n)) := by
  have key : ∀ bytes, reserve P bytes s = (Outcome.returned, s) ∨
      reserve P bytes s = (Outcome.length_error, s) ∨
      (∃ n e, s.sp_.allocate s.trace n = Except.error e ∧
        reserve P bytes s = (Outcome.allocate_error e,
          { s with trace := s.trace ++ [Event.allocate_failed n e] })) ∨
      (∃ n b, s.capacity_ < n ∧ (P.min_capacity_ ≤ P.max_size → n ≤ P.max_size) ∧
        s.sp_.allocate s.trace n = Except.ok b ∧
        reserve P bytes s = (Outcome.returned, install s b n)) := by
    intro bytes
    rcases reserve_cases P bytes s with ⟨_, e⟩ | ⟨_, _, e⟩ | ⟨_, _, x, hx, e⟩ | ⟨h1, h2, b, hb, e⟩
    · exact Or.inl e
    · exact Or.inr (Or.inl e)
    · exact Or.inr (Or.inr (Or.inl ⟨_, x, hx, e⟩))
    · have hb3 := new_capacity_bounds P s bytes h1 h2
      exact Or.inr (Or.inr (Or.inr ⟨_, b, hb3.2.1, hb3.2.2, hb, e⟩))
  cases c with
  | reserve bytes => exact key bytes
  | grow n =>
    show grow P n s = _ ∨ grow P n s = _ ∨ (∃ n_1 e, _ ∧ grow P n s = _) ∨
      (∃ n_1 b, _ ∧ _ ∧ _ ∧ grow P n s = _)
    unfold grow
    split_ifs
    · exact Or.inr (Or.inl rfl)
    · exact key _

/-- The trace after a call is the trace before it followed by the events of
the call. -/
theorem trace_eq (P : Config) (c : Call) (s : State) :
    (call P c s).2.trace = s.trace ++ emitted P c s := by
  unfold emitted
  rcases call_shape P c s with e | e | ⟨n, x, _, e⟩ | ⟨n, b, _, _, _, e⟩ <;> rw [e]
  · simp
  · simp
  · simp
  · simp [install_trace]

/-- The length error of `reserve`: the request exceeds both the capacity and
`max_size()`. -/
theorem reserve_throws_iff (P : Config) (bytes : Nat) (s : State) :
    (reserve P bytes s).1 = Outcome.length_error ↔ s.capacity_ < bytes ∧ P.max_size < bytes := by
  rcases reserve_cases P bytes s with ⟨h, e⟩ | ⟨_, h, e⟩ | ⟨_, h, x, _, e⟩ | ⟨_, h, b, _, e⟩ <;>
    rw [e] <;> simp <;> omega

theorem outstanding_append_failed (t : List Event) (n e : Nat) :
    outstanding (t ++ [Event.allocate_failed n e]) = outstanding t := by
  simp [outstanding, List.foldl_append]

/-- When the subtraction in `grow` does not wrap, `grow` either throws the
length error at once or is `reserve` at the exact sum. -/
theorem grow_cases (P : Config) (n : Nat) (s : State) (hcap : s.capacity_ ≤ P.max_size) :
    (P.max_size - s.capacity_ < n ∧ grow P n s = (Outcome.length_error, s)) ∨
    (n ≤ P.max_size - s.capacity_ ∧ s.capacity_ + n ≤ P.max_size ∧
      uadd P.w s.capacity_ n = s.capacity_ + n ∧
      grow P n s = reserve P (s.capacity_ + n) s) := by
  have hu : usub P.w P.max_size s.capacity_ = P.max_size - s.capacity_ :=
    usub_eq P.w P.max_size s.capacity_ hcap P.max_size_lt
  have hlt := P.max_size_lt
  unfold grow
  rw [hu]
  by_cases h : n > P.max_size - s.capacity_
  · exact Or.inl ⟨h, by simp [h]⟩
  · have ha : uadd P.w s.capacity_ n = s.capacity_ + n := uadd_eq _ _ _ (by omega)
    exact Or.inr ⟨by omega, by omega, ha, by simp [h, ha]⟩

theorem run_append (P : Config) (pre post : List Call) (s : State) :
    run P (pre ++ post) s = run P post (run P pre s) := by
  induction pre generalizing s with
  | nil => rfl
  | cons c cs ih => exact ih _

theorem call_capacity_mono (P : Config) (c : Call) (s : State) :
    s.capacity_ ≤ (call P c s).2.capacity_ := by
  rcases call_shape P c s with e | e | ⟨n, x, _, e⟩ | ⟨n, b, hn, _, _, e⟩ <;> simp [e]
  exact hn.le

theorem run_capacity_mono (P : Config) (cs : List Call) (s : State) :
    s.capacity_ ≤ (run P cs s).capacity_ := by
  induction cs generalizing s with
  | nil => exact le_rfl
  | cons c cs ih => exact le_trans (call_capacity_mono P c s) (ih _)

theorem call_size (P : Config) (c : Call) (s : State) : (call P c s).2.size_ = s.size_ := by
  rcases call_shape P c s with e | e | ⟨n, x, _, e⟩ | ⟨n, b, _, _, _, e⟩ <;> simp [e]

theorem call_invariant (P : Config) (hmin : P.min_capacity_ ≤ P.max_size) (c : Call)
    (s : State) (h : invariant P s) : invariant P (call P c s).2 := by
  have h1 := call_capacity_mono P c s
  have h2 := call_size P c s
  refine ⟨by have := h.1; omega, ?_⟩
  rcases call_shape P c s with e | e | ⟨n, x, _, e⟩ | ⟨n, b, _, hn, _, e⟩ <;> rw [e] <;> simp
  · exact h.2
  · exact h.2
  · exact h.2
  · exact hn hmin

/-- A request of `max_size()` is passed to `allocate` as it is, when
`min_capacity_` does not exceed it. -/
theorem new_capacity_max_size (P : Config) (s : State) (hcap : s.capacity_ ≤ P.max_size)
    (hmin : P.min_capacity_ ≤ P.max_size) : new_capacity P s P.max_size = P.max_size := by
  have hu : usub P.w P.max_size s.capacity_ = P.max_size - s.capacity_ :=
    usub_eq P.w P.max_size s.capacity_ hcap P.max_size_lt
  have hh := hint_le P.w s.capacity_
  unfold new_capacity
  simp only [hu]
  split_ifs <;> omega

/-! ## The low-bit mask -/

/-- Masking an even `std::size_t` value with `~1` leaves it as it is. -/
theorem and_not_one_of_even (w y : Nat) (hy : y < 2 ^ w) (he : y % 2 = 0) :
    y &&& not_one w = y := by
  unfold not_one
  apply Nat.eq_of_testBit_eq
  intro i
  rw [Nat.testBit_and]
  cases hb : y.testBit i with
  | false => simp
  | true =>
    have hi : i < w := by
      by_contra hcon
      have hlt : y < 2 ^ i := lt_of_lt_of_le hy (Nat.pow_le_pow_right (by norm_num) (by omega))
      rw [Nat.testBit_lt_two_pow hlt] at hb
      exact absurd hb (by simp)
    have h0 : i ≠ 0 := by
      rintro rfl
      simp [Nat.testBit_zero, he] at hb
    have hw : 1 < 2 ^ w := Nat.one_lt_two_pow (by omega)
    have h1 : Nat.testBit 1 i = false := by
      cases i with
      | zero => exact absurd rfl h0
      | succ j => simp [Nat.testBit_succ]
    have h2 := Nat.testBit_two_pow_sub_succ hw i
    simp only [h1, hi] at h2
    simpa using h2

theorem umul_two_even (w c : Nat) : umul w c 2 % 2 = 0 := by
  unfold umul
  cases w with
  | zero => simp [Nat.mod_one]
  | succ n =>
    have hd : 2 ∣ 2 ^ (n + 1) := Dvd.intro_left (2 ^ n) rfl
    rw [Nat.mod_mod_of_dvd _ hd]
    omega

/-- The hint `(capacity_ * 2) & ~1` is the product `capacity_ * 2` of
`std::size_t`, for every capacity. -/
theorem hint_eq (w c : Nat) : umul w c 2 &&& not_one w = umul w c 2 :=
  and_not_one_of_even w _ (Nat.mod_lt _ (Nat.two_pow_pos w)) (umul_two_even w c)

/-- Where the doubling is within `max_size()`, the hint is twice the capacity. -/
theorem hint_exact (P : Config) (c : Nat) (h : c ≤ P.max_size - c) :
    umul P.w c 2 &&& not_one P.w = c * 2 := by
  rw [hint_eq]
  have hlt := P.max_size_lt
  unfold umul
  exact Nat.mod_eq_of_lt (by omega)

/-- The amount asked of `allocate`, in exact arithmetic, for a state with
`capacity <= max_size`. -/
theorem new_capacity_eq (P : Config) (s : State) (bytes : Nat)
    (hcap : s.capacity_ ≤ P.max_size) :
    new_capacity P s bytes =
      if s.capacity_ ≤ P.max_size - s.capacity_ then
        max (max bytes P.min_capacity_) (s.capacity_ * 2)
      else P.max_size := by
  have hu : usub P.w P.max_size s.capacity_ = P.max_size - s.capacity_ :=
    usub_eq P.w P.max_size s.capacity_ hcap P.max_size_lt
  unfold new_capacity
  simp only [hu]
  by_cases h : s.capacity_ ≤ P.max_size - s.capacity_
  · simp only [h, if_true, hint_exact P _ h]
    split_ifs <;> omega
  · simp only [h, if_false]

/-! ## The allocate/deallocate discipline -/

theorem outstanding_eq (t : List Event) : outstanding t = t.foldl live_step [] := by
  have h : (fun (live : List (Nat × Nat)) (e : Event) =>
      match e with
      | Event.allocated bytes p => (p, bytes) :: live
      | Event.deallocate p bytes => live.erase (p, bytes)
      | _ => live) = live_step := by
    funext live e
    cases e <;> rfl
  unfold outstanding
  rw [h]

theorem disciplined_from_append (live : List (Nat × Nat)) (t u : List Event) :
    disciplined_from live (t ++ u) =
      (disciplined_from live t && disciplined_from (t.foldl live_step live) u) := by
  induction t generalizing live with
  | nil => simp [disciplined_from]
  | cons e t ih => simp [disciplined_from, ih, Bool.and_assoc]

/-- The events of a call that installs the block `b` of `n` bytes. -/
theorem emitted_install (P : Config) (c : Call) (s : State) (b n : Nat)
    (e : call P c s = (Outcome.returned, install s b n)) :
    emitted P c s = Event.allocated n b ::
      (if s.base_ ≠ 0 then
        [Event.memcpy b s.base_ s.size_, Event.deallocate s.base_ s.capacity_] else []) := by
  unfold emitted
  rw [e]
  simp [install_trace]

/-- What a stack keeps true of its trace: the trace is disciplined, and the
block `base_` points to, if any, is outstanding with the size `capacity_`. -/
theorem call_disciplined (P : Config) (c : Call) (s : State)
    (h1 : disciplined s.trace = true)
    (h2 : s.base_ ≠ 0 → (s.base_, s.capacity_) ∈ outstanding s.trace) :
    disciplined (call P c s).2.trace = true ∧
    ((call P c s).2.base_ ≠ 0 →
      ((call P c s).2.base_, (call P c s).2.capacity_) ∈ outstanding (call P c s).2.trace) := by
  rcases call_shape P c s with e | e | ⟨n, x, _, e⟩ | ⟨n, b, hn, _, _, e⟩ <;> rw [e]
  · exact ⟨h1, h2⟩
  · exact ⟨h1, h2⟩
  · refine ⟨?_, ?_⟩
    · show disciplined (s.trace ++ [Event.allocate_failed n x]) = true
      unfold disciplined at h1 ⊢
      rw [disciplined_from_append, h1]
      simp [disciplined_from]
    · show s.base_ ≠ 0 → (s.base_, s.capacity_) ∈
        outstanding (s.trace ++ [Event.allocate_failed n x])
      rw [outstanding_append_failed]
      exact h2
  · simp only [install_base, install_capacity, install_trace]
    rw [outstanding_eq] at h2
    unfold disciplined at h1 ⊢
    rw [disciplined_from_append, h1, outstanding_eq, List.foldl_append]
    by_cases hb : s.base_ = 0
    · simp [hb, disciplined_from, live_step]
    · have hmem := h2 hb
      have hne : (b, n) ≠ (s.base_, s.capacity_) := by
        intro heq
        have : n = s.capacity_ := congrArg Prod.snd heq
        omega
      simp only [ne_eq, hb, not_false_eq_true, if_true, disciplined_from, live_step,
        List.foldl_cons, List.foldl_nil, Bool.true_and, Bool.and_true, decide_eq_true_eq]
      refine ⟨List.mem_cons_of_mem _ hmem, fun _ => ?_⟩
      rw [List.erase_cons_tail (by simpa using hne)]
      exact List.mem_cons_self _ _

theorem run_disciplined (P : Config) (cs : List Call) (s : State)
    (h1 : disciplined s.trace = true)
    (h2 : s.base_ ≠ 0 → (s.base_, s.capacity_) ∈ outstanding s.trace) :
    disciplined (run P cs s).trace = true := by
  induction cs generalizing s with
  | nil => exact h1
  | cons c cs ih =>
    have h := call_disciplined P c s h1 h2
    exact ih _ h.1 h.2

/-! ## The amount allocated -/

/-- The four ways through a call, with the request behind the amount that is
allocated. -/
theorem call_shape_request (P : Config) (c : Call) (s : State) :
    call P c s = (Outcome.returned, s) ∨
    call P c s = (Outcome.length_error, s) ∨
    (∃ n e, s.sp_.allocate s.trace n = Except.error e ∧
      call P c s = (Outcome.allocate_error e,
        { s with trace := s.trace ++ [Event.allocate_failed n e] })) ∨
    (∃ bytes b, s.capacity_ < bytes ∧ bytes ≤ P.max_size ∧
      s.sp_.allocate s.trace (new_capacity P s bytes) = Except.ok b ∧
      call P c s = (Outcome.returned, install s b (new_capacity P s bytes))) := by
  have key : ∀ bytes, reserve P bytes s = (Outcome.returned, s) ∨
      reserve P bytes s = (Outcome.length_error, s) ∨
      (∃ n e, s.sp_.allocate s.trace n = Except.error e ∧
        reserve P bytes s = (Outcome.allocate_error e,
          { s with trace := s.trace ++ [Event.allocate_failed n e] })) ∨
      (∃ bytes_1 b, s.capacity_ < bytes_1 ∧ bytes_1 ≤ P.max_size ∧
        s.sp_.allocate s.trace (new_capacity P s bytes_1) = Except.ok b ∧
        reserve P bytes s = (Outcome.returned, install s b (new_capacity P s bytes_1))) := by
    intro bytes
    rcases reserve_cases P bytes s with ⟨_, e⟩ | ⟨_, _, e⟩ | ⟨_, _, x, hx, e⟩ | ⟨h1, h2, b, hb, e⟩
    · exact Or.inl e
    · exact Or.inr (Or.inl e)
    · exact Or.inr (Or.inr (Or.inl ⟨_, x, hx, e⟩))
    · exact Or.inr (Or.inr (Or.inr ⟨bytes, b, h1, h2, hb, e⟩))
  cases c with
  | reserve bytes => exact key bytes
  | grow n =>
    show grow P n s = _ ∨ grow P n s = _ ∨ (∃ n_1 e, _ ∧ grow P n s = _) ∨
      (∃ bytes b, _ ∧ _ ∧ _ ∧ grow P n s = _)
    unfold grow
    split_ifs
    · exact Or.inr (Or.inl rfl)
    · exact key _

/-- The amount allocated is at least `min_capacity_`, when `min_capacity_` is
within `max_size()` or the doubling is. -/
theorem new_capacity_ge_min (P : Config) (s : State) (bytes : Nat)
    (hcap : s.capacity_ ≤ P.max_size)
    (h : P.min_capacity_ ≤ P.max_size ∨ s.capacity_ ≤ P.max_size - s.capacity_) :
    P.min_capacity_ ≤ new_capacity P s bytes := by
  rw [new_capacity_eq P s bytes hcap]
  split_ifs with hb
  · exact le_trans (le_max_right _ _) (le_max_left _ _)
  · rcases h with h | h
    · exact h
    · exact absurd h hb

/-- With `min_capacity_` above `max_size()`, a capacity is 0 or above
`max_size()`, on every stack that started fresh. -/
theorem call_floor (P : Config) (c : Call) (s : State)
    (h : P.max_size < P.min_capacity_ → s.capacity_ = 0 ∨ P.max_size < s.capacity_) :
    P.max_size < P.min_capacity_ →
      (call P c s).2.capacity_ = 0 ∨ P.max_size < (call P c s).2.capacity_ := by
  intro hm
  rcases call_shape_request P c s with e | e | ⟨n, x, _, e⟩ | ⟨bytes, b, h1, h2, _, e⟩ <;>
    rw [e]
  · exact h hm
  · exact h hm
  · exact h hm
  · right
    have h0 : s.capacity_ = 0 := by
      rcases h hm with h0 | h0
      · exact h0
      · omega
    have := new_capacity_ge_min P s bytes (by omega) (Or.inr (by omega))
    simp only [install_capacity]
    omega

theorem run_floor (P : Config) (cs : List Call) (s : State)
    (h : P.max_size < P.min_capacity_ → s.capacity_ = 0 ∨ P.max_size < s.capacity_) :
    P.max_size < P.min_capacity_ →
      (run P cs s).capacity_ = 0 ∨ P.max_size < (run P cs s).capacity_ := by
  induction cs generalizing s with
  | nil => exact h
  | cons c cs ih => exact ih _ (call_floor P c s h)

/-- A `reserve` that returns on a request above the capacity has installed a
block of `new_capacity` bytes. -/
theorem reserve_reallocated (P : Config) (s : State) (bytes : Nat)
    (hok : (reserve P bytes s).1 = Outcome.returned) (hlt : s.capacity_ < bytes) :
    bytes ≤ P.max_size ∧ ∃ b, s.sp_.allocate s.trace (new_capacity P s bytes) = Except.ok b ∧
      reserve P bytes s = (Outcome.returned, install s b (new_capacity P s bytes)) := by
  rcases reserve_cases P bytes s with
    ⟨h, _⟩ | ⟨_, _, e⟩ | ⟨_, _, x, _, e⟩ | ⟨_, h2, b, hb, e⟩
  · omega
  · rw [e] at hok; simp at hok
  · rw [e] at hok; simp at hok
  · exact ⟨h2, b, hb, e⟩

theorem call_sp (P : Config) (c : Call) (s : State) : (call P c s).2.sp_ = s.sp_ := by
  rcases call_shape P c s with e | e | ⟨n, x, _, e⟩ | ⟨n, b, _, _, _, e⟩ <;> simp [e]

theorem reserve_of_allocate_ok (P : Config) (s : State) (bytes b : Nat)
    (h1 : s.capacity_ < bytes) (h2 : bytes ≤ P.max_size)
    (hb : s.sp_.allocate s.trace (new_capacity P s bytes) = Except.ok b) :
    reserve P bytes s = (Outcome.returned, install s b (new_capacity P s bytes)) := by
  have h3 : ¬ bytes ≤ s.capacity_ := by omega
  have h4 : ¬ bytes > P.max_size := by omega
  simp [reserve, h3, h4, hb]

theorem clear_low_bit_double (c : Nat) : clear_low_bit (c * 2) = c * 2 := by
  unfold clear_low_bit
  omega

/-- The amount allocated, in the words of the spec. -/
theorem new_capacity_spec (P : Config) (s : State) (bytes : Nat)
    (hcap : s.capacity_ ≤ P.max_size) (hmin : P.min_capacity_ ≤ P.max_size)
    (h2 : bytes ≤ P.max_size) :
    new_capacity P s bytes =
      max bytes (max P.min_capacity_ (spec_growth_hint P s.capacity_)) := by
  rw [new_capacity_eq P s bytes hcap]
  unfold spec_growth_hint
  split_ifs
  · rw [clear_low_bit_double]; omega
  · omega

/-! ## Geometric growth -/

theorem reallocations_append (t u : List Event) :
    reallocations (t ++ u) = reallocations t + reallocations u := by
  simp [reallocations]

theorem reallocations_install (s : State) (b n : Nat) :
    reallocations (install s b n).trace = reallocations s.trace + 1 := by
  rw [install_trace, reallocations_append]
  by_cases h : s.base_ = 0 <;> simp [reallocations, h, Event.is_allocated]

/-- A reallocation at least doubles the capacity where the double is within
`max_size()`, and sets it to `max_size()` otherwise. -/
theorem new_capacity_doubles (P : Config) (s : State) (bytes : Nat)
    (hcap : s.capacity_ ≤ P.max_size) :
    (2 * s.capacity_ ≤ P.max_size → 2 * s.capacity_ ≤ new_capacity P s bytes) ∧
    (P.max_size < 2 * s.capacity_ → new_capacity P s bytes = P.max_size) := by
  rw [new_capacity_eq P s bytes hcap]
  constructor
  · intro h
    have h1 : s.capacity_ ≤ P.max_size - s.capacity_ := by omega
    rw [if_pos h1]
    omega
  · intro h
    have h1 : ¬ s.capacity_ ≤ P.max_size - s.capacity_ := by omega
    rw [if_neg h1]

/-- What a stack keeps true of the number of its reallocations: after `k + 1`
of them the capacity is at least `min (2^k * min_capacity_) max_size`, and
above `2^(k-1) * min_capacity_` when `k >= 1`. -/
theorem call_geometric (P : Config) (hmin : P.min_capacity_ ≤ P.max_size) (c : Call)
    (s : State) (hcap : s.capacity_ ≤ P.max_size)
    (h : ∀ k, reallocations s.trace = k + 1 →
      min (2 ^ k * P.min_capacity_) P.max_size ≤ s.capacity_ ∧
      ∀ j, k = j + 1 → 2 ^ j * P.min_capacity_ < s.capacity_) :
    (call P c s).2.capacity_ ≤ P.max_size ∧
    ∀ k, reallocations (call P c s).2.trace = k + 1 →
      min (2 ^ k * P.min_capacity_) P.max_size ≤ (call P c s).2.capacity_ ∧
      ∀ j, k = j + 1 → 2 ^ j * P.min_capacity_ < (call P c s).2.capacity_ := by
  rcases call_shape_request P c s with e | e | ⟨n, x, _, e⟩ | ⟨bytes, b, h1, h2, _, e⟩ <;>
    rw [e]
  · exact ⟨hcap, h⟩
  · exact ⟨hcap, h⟩
  · refine ⟨hcap, fun k hk => h k ?_⟩
    have : reallocations (s.trace ++ [Event.allocate_failed n x]) = reallocations s.trace := by
      simp [reallocations, Event.is_allocated]
    rw [← this]; exact hk
  · have hb := new_capacity_bounds P s bytes h1 h2
    have hd := new_capacity_doubles P s bytes hcap
    have hm := new_capacity_ge_min P s bytes hcap (Or.inl hmin)
    simp only [install_capacity, reallocations_install]
    refine ⟨hb.2.2 hmin, fun k hk => ?_⟩
    have hk1 : reallocations s.trace = k := by omega
    cases k with
    | zero =>
      refine ⟨le_trans (min_le_left _ _) (by simpa using hm), fun j hj => by omega⟩
    | succ i =>
      obtain ⟨hi, _⟩ := h i hk1
      have hlow : 2 ^ i * P.min_capacity_ ≤ s.capacity_ := by
        rcases min_le_iff.mp hi with h3 | h3
        · exact h3
        · omega
      have hp : 2 ^ (i + 1) * P.min_capacity_ = 2 * (2 ^ i * P.min_capacity_) := by ring
      refine ⟨?_, fun j hj => ?_⟩
      · rw [hp]
        by_cases h4 : 2 * s.capacity_ ≤ P.max_size
        · exact le_trans (min_le_left _ _) (le_trans (by omega) (hd.1 h4))
        · rw [hd.2 (by omega)]
          exact min_le_right _ _
      · have : j = i := by omega
        subst this
        omega

theorem run_geometric (P : Config) (hmin : P.min_capacity_ ≤ P.max_size) (cs : List Call)
    (s : State) (hcap : s.capacity_ ≤ P.max_size)
    (h : ∀ k, reallocations s.trace = k + 1 →
      min (2 ^ k * P.min_capacity_) P.max_size ≤ s.capacity_ ∧
      ∀ j, k = j + 1 → 2 ^ j * P.min_capacity_ < s.capacity_) :
    ∀ k, reallocations (run P cs s).trace = k + 1 →
      min (2 ^ k * P.min_capacity_) P.max_size ≤ (run P cs s).capacity_ ∧
      ∀ j, k = j + 1 → 2 ^ j * P.min_capacity_ < (run P cs s).capacity_ := by
  induction cs generalizing s with
  | nil => exact h
  | cons c cs ih =>
    have hc := call_geometric P hmin c s hcap h
    exact ih _ hc.1 hc.2

/-! ## The variant with plain doubling -/

theorem new_capacity_plain_eq (P : Config) (s : State) (bytes : Nat) :
    new_capacity P s bytes = new_capacity_plain P s bytes := by
  unfold new_capacity new_capacity_plain
  simp only [hint_eq]

theorem reserve_plain_eq (P : Config) (bytes : Nat) (s : State) :
    reserve P bytes s = reserve_plain P bytes s := by
  unfold reserve reserve_plain
  simp only [new_capacity_plain_eq]

/-! ## Sequences of `grow(1)` -/

theorem allocate_calls_install (s : State) (b n : Nat) :
    allocate_calls (install s b n).trace = allocate_calls s.trace + 1 := by
  rw [install_trace]
  by_cases h : s.base_ = 0 <;> simp [allocate_calls, h, Event.is_allocate]

/-- A `grow(n)` with `n >= 1` that returns, on a state with
`capacity <= max_size`, has installed a new block. -/
theorem grow_reallocated (P : Config) (s : State) (n : Nat)
    (hcap : s.capacity_ ≤ P.max_size) (hn : 1 ≤ n)
    (hok : (grow P n s).1 = Outcome.returned) :
    ∃ b, grow P n s = (Outcome.returned, install s b (new_capacity P s (s.capacity_ + n))) := by
  rcases grow_cases P n s hcap with ⟨_, e⟩ | ⟨_, _, _, e⟩
  · rw [e] at hok; simp at hok
  · rw [e] at hok
    obtain ⟨_, b, _, e2⟩ := reserve_reallocated P s (s.capacity_ + n) hok (by omega)
    exact ⟨b, by rw [e, e2]⟩

/-- Each of `N` calls `grow(1)` that all return adds one call of `allocate`. -/
theorem grow_one_count (P : Config) (hmin : P.min_capacity_ ≤ P.max_size) (N : Nat)
    (s : State) (hinv : invariant P s)
    (hall : ∀ o ∈ outcomes P (List.replicate N (Call.grow 1)) s, o = Outcome.returned) :
    allocate_calls (run P (List.replicate N (Call.grow 1)) s).trace =
      allocate_calls s.trace + N := by
  induction N generalizing s with
  | zero => rfl
  | succ N ih =>
    have hok : (grow P 1 s).1 = Outcome.returned :=
      hall _ (by simp [List.replicate_succ, outcomes])
    have hrest : ∀ o ∈ outcomes P (List.replicate N (Call.grow 1)) (grow P 1 s).2,
        o = Outcome.returned := fun o ho => hall o (by simp [List.replicate_succ, outcomes, ho])
    have hnext := ih (grow P 1 s).2 (call_invariant P hmin (Call.grow 1) s hinv) hrest
    obtain ⟨b, e⟩ := grow_reallocated P s 1 hinv.2 le_rfl hok
    show allocate_calls (run P (List.replicate N (Call.grow 1)) (grow P 1 s).2).trace = _
    rw [hnext, e, allocate_calls_install]
    omega

/-- With `min_capacity_` at most 1 and a resource that always returns, `N`
calls `grow(1)` all return when `(capacity + 1) * 2^N <= max_size + 1`. -/
theorem grow_one_all_returned (P : Config) (hmin : P.min_capacity_ ≤ 1)
    (sp : memory_resource) (hsp : always_succeeds sp) (N : Nat) (s : State) (hs : s.sp_ = sp)
    (hroom : (s.capacity_ + 1) * 2 ^ N ≤ P.max_size + 1) :
    ∀ o ∈ outcomes P (List.replicate N (Call.grow 1)) s, o = Outcome.returned := by
  induction N generalizing s with
  | zero => simp [outcomes]
  | succ N ih =>
    have hp : (s.capacity_ + 1) * 2 ^ (N + 1) = 2 * ((s.capacity_ + 1) * 2 ^ N) := by ring
    have hpos : 1 ≤ 2 ^ N := Nat.one_le_two_pow
    have hmul : s.capacity_ + 1 ≤ (s.capacity_ + 1) * 2 ^ N := Nat.le_mul_of_pos_right _ hpos
    have hcap : s.capacity_ ≤ P.max_size := by omega
    have hdouble : s.capacity_ ≤ P.max_size - s.capacity_ := by omega
    obtain ⟨b, hb, _⟩ := hsp s.trace (new_capacity P s (s.capacity_ + 1))
    have e : grow P 1 s =
        (Outcome.returned, install s b (new_capacity P s (s.capacity_ + 1))) := by
      rcases grow_cases P 1 s hcap with ⟨h, _⟩ | ⟨_, _, _, e⟩
      · omega
      · rw [e]
        exact reserve_of_allocate_ok P s _ b (by omega) (by omega) (hs ▸ hb)
    have hnew : new_capacity P s (s.capacity_ + 1) ≤ 2 * s.capacity_ + 1 := by
      rw [new_capacity_eq P s _ hcap, if_pos hdouble]
      omega
    have hroom2 : ((grow P 1 s).2.capacity_ + 1) * 2 ^ N ≤ P.max_size + 1 := by
      rw [e]
      simp only [install_capacity]
      calc (new_capacity P s (s.capacity_ + 1) + 1) * 2 ^ N
          ≤ (2 * (s.capacity_ + 1)) * 2 ^ N := Nat.mul_le_mul_right _ (by omega)
        _ = 2 * ((s.capacity_ + 1) * 2 ^ N) := by ring
        _ ≤ P.max_size + 1 := by omega
    have hs2 : (grow P 1 s).2.sp_ = sp := by rw [e]; simp [hs]
    intro o ho
    simp only [List.replicate_succ, outcomes, List.mem_cons, call_grow] at ho
    rcases ho with ho | ho
    · rw [ho, e]
    · exact ih (grow P 1 s).2 hs2 hroom2 o ho

/-- No multiple of `log2 N + 1` bounds `N` for every `N`. -/
theorem pow_exceeds_log_bound (C : Nat) :
    C * (Nat.log 2 (2 ^ (4 * C + 2)) + 1) < 2 ^ (4 * C + 2) := by
  rw [Nat.log_pow (by norm_num : 1 < 2)]
  have h1 : 2 * C + 1 < 2 ^ (2 * C + 1) := Nat.lt_two_pow _
  have h2 : 2 ^ (4 * C + 2) = 2 ^ (2 * C + 1) * 2 ^ (2 * C + 1) := by
    rw [← pow_add]; congr 1; omega
  rw [h2]
  nlinarith

/-- A call that returns keeps the bytes in use, where there is a buffer behind
them: `base_` is not null when `size_ > 0`. -/
theorem call_preserves_content (P : Config) (c : Call) (s : State)
    (hsize : s.size_ ≤ s.capacity_) (hbase : 0 < s.size_ → s.base_ ≠ 0)
    (hok : (call P c s).1 = Outcome.returned) :
    (∀ i, i < s.size_ → (call P c s).2.mem (call P c s).2.base_ i = s.mem s.base_ i) ∧
    (call P c s).2.size_ = s.size_ ∧
    (emitted P c s).filter Event.is_memcpy =
      (if s.capacity_ < (call P c s).2.capacity_ ∧ s.base_ ≠ 0 then
        [Event.memcpy (call P c s).2.base_ s.base_ s.size_] else []) ∧
    s.size_ ≤ (call P c s).2.capacity_ := by
  unfold emitted
  rcases call_shape P c s with e | e | ⟨n, x, _, e⟩ | ⟨n, b, hn, _, _, e⟩ <;>
    rw [e] at hok ⊢ <;> simp at hok ⊢
  · exact hsize
  · refine ⟨?_, ?_, by omega⟩
    · intro i hi
      have hb : s.base_ ≠ 0 := hbase (by omega)
      simp [install_mem, hb, memcpy, hi]
    · by_cases hb : s.base_ = 0 <;> simp [install_trace, hb, hn, Event.is_memcpy]

/-- The `std::size_t` value of `a + 1` is `a + 1` when that is below `2^w`,
and 0 when `a` is the largest value of the type. -/
theorem uadd_one (w a : Nat) :
    (a + 1 < 2 ^ w → uadd w a 1 = a + 1) ∧ (a + 1 = 2 ^ w → uadd w a 1 = 0) := by
  unfold uadd
  exact ⟨fun h => Nat.mod_eq_of_lt h, fun h => by rw [h, Nat.mod_self]⟩

/-! ## The claims -/

/-- C1: for every stack state with `size <= capacity <= max_size` and every
request `bytes`, if `reserve(bytes)` returns then the resulting capacity is at
least `bytes`, the amount originally requested, and `size` is unchanged. -/
theorem reserve_ensures_capacity (P : Config) (s : State) (bytes : Nat)
    (_hsize : s.size_ ≤ s.capacity_) (_hcap : s.capacity_ ≤ P.max_size)
    (hok : (reserve P bytes s).1 = Outcome.returned) :
    bytes ≤ (reserve P bytes s).2.capacity_ ∧ (reserve P bytes s).2.size_ = s.size_ :=
  ⟨reserve_returned_ge P bytes s hok, reserve_size P bytes s⟩

/-- C1 at a concrete input: `reserve(10)` on a block of 8 bytes holding 3. -/
theorem reserve_ensures_capacity_witness :
    used_state.size_ ≤ used_state.capacity_ ∧ used_state.capacity_ ≤ config64.max_size ∧
    (reserve config64 10 used_state).1 = Outcome.returned ∧
    10 ≤ (reserve config64 10 used_state).2.capacity_ ∧
    (reserve config64 10 used_state).2.size_ = used_state.size_ :=
  ⟨by decide, by decide, by decide,
    reserve_ensures_capacity config64 used_state 10 (by decide) (by decide) (by decide)⟩

/-- C2: content preservation. For every stack state with `size <= capacity`,
`base` being null exactly when `capacity` is 0 as in the data model, and every
call of `reserve` or `grow` that returns, the first `size` bytes of the buffer
after the call are the first `size` bytes of the buffer before it and `size`
is unchanged; the call copies once, exactly `size` bytes from the old `base` to
the new one, when it reallocates and a previous buffer existed, and copies
nothing otherwise; and `size` is within the new capacity as it is within the
old one, so the copy stays inside both buffers. -/
theorem content_preserved (P : Config) (c : Call) (s : State)
    (hsize : s.size_ ≤ s.capacity_) (hstate : base_consistent s)
    (hok : (call P c s).1 = Outcome.returned) :
    (∀ i, i < s.size_ → (call P c s).2.mem (call P c s).2.base_ i = s.mem s.base_ i) ∧
    (call P c s).2.size_ = s.size_ ∧
    (emitted P c s).filter Event.is_memcpy =
      (if s.capacity_ < (call P c s).2.capacity_ ∧ s.base_ ≠ 0 then
        [Event.memcpy (call P c s).2.base_ s.base_ s.size_] else []) ∧
    s.size_ ≤ (call P c s).2.capacity_ :=
  call_preserves_content P c s hsize
    (fun hpos hnull => by have := hstate.mp hnull; omega) hok

/-- C2 at a concrete input: `grow(2)` on a block of 8 bytes holding 3. -/
theorem content_preserved_witness :
    used_state.size_ ≤ used_state.capacity_ ∧ base_consistent used_state ∧
    (call config64 (Call.grow 2) used_state).1 = Outcome.returned ∧
    (emitted config64 (Call.grow 2) used_state).filter Event.is_memcpy = [Event.memcpy 2 5 3] ∧
    (call config64 (Call.grow 2) used_state).2.mem 2 1 = used_state.mem 5 1 :=
  have h := content_preserved config64 (Call.grow 2) used_state (by decide) (by decide)
    (by decide)
  ⟨by decide, by decide, by decide, by decide, h.1 1 (by decide)⟩

/-- C3: strong guarantee. For every stack state and every argument, if
`reserve` or `grow` does not return, then the memory resource, `base`, `size`,
`capacity` and the contents of memory are what they were before the call, the
call has issued no `deallocate`, the outstanding allocations are those from
before the call, and either the length error was thrown with the memory
resource not called at all, or `allocate` threw and the call ends with that
same exception. -/
theorem strong_guarantee (P : Config) (c : Call) (s : State)
    (hfail : (call P c s).1 ≠ Outcome.returned) :
    (call P c s).2.sp_ = s.sp_ ∧ (call P c s).2.base_ = s.base_ ∧
    (call P c s).2.size_ = s.size_ ∧ (call P c s).2.capacity_ = s.capacity_ ∧
    (call P c s).2.mem = s.mem ∧
    (∀ e ∈ emitted P c s, e.is_deallocate = false) ∧
    outstanding (call P c s).2.trace = outstanding s.trace ∧
    (((call P c s).1 = Outcome.length_error ∧ emitted P c s = []) ∨
      ∃ n e, s.sp_.allocate s.trace n = Except.error e ∧
        (call P c s).1 = Outcome.allocate_error e ∧
        emitted P c s = [Event.allocate_failed n e]) := by
  unfold emitted
  rcases call_shape P c s with e | e | ⟨n, x, hx, e⟩ | ⟨n, b, _, _, _, e⟩ <;>
    rw [e] at hfail ⊢ <;> simp at hfail ⊢
  exact ⟨by simp [Event.is_deallocate], outstanding_append_failed _ _ _, n, x, hx, rfl, rfl, rfl⟩

/-- C3 at a concrete input: `reserve(100)` when `allocate` throws `7`. -/
theorem strong_guarantee_witness :
    (call config64 (Call.reserve 100) starved_state).1 = Outcome.allocate_error 7 ∧
    (call config64 (Call.reserve 100) starved_state).2.capacity_ = 8 ∧
    (call config64 (Call.reserve 100) starved_state).2.base_ = 5 ∧
    outstanding (call config64 (Call.reserve 100) starved_state).2.trace = [(5, 8)] :=
  have h := strong_guarantee config64 (Call.reserve 100) starved_state (by decide)
  ⟨by decide, h.2.2.2.1, h.2.1, by decide⟩

/-- C4: for every stack state with `capacity <= max_size` and every request
`bytes`, `reserve(bytes)` throws the length error if and only if
`bytes > max_size`; when it does, the state is the one before the call and the
call has emitted no event: the memory resource was called neither for
`allocate` nor for `deallocate`. -/
theorem reserve_length_error_iff (P : Config) (s : State) (bytes : Nat)
    (hcap : s.capacity_ ≤ P.max_size) :
    ((reserve P bytes s).1 = Outcome.length_error ↔ P.max_size < bytes) ∧
    ((reserve P bytes s).1 = Outcome.length_error →
      (reserve P bytes s).2 = s ∧ emitted P (Call.reserve bytes) s = []) := by
  unfold emitted
  rw [call_reserve]
  rcases reserve_cases P bytes s with ⟨h, e⟩ | ⟨_, h, e⟩ | ⟨_, h, x, _, e⟩ | ⟨_, h, b, _, e⟩ <;>
    rw [e] <;> simp <;> omega

/-- C4 at a concrete input: `reserve(2^32)` with `max_size() = 2^32 - 1`. -/
theorem reserve_length_error_iff_witness :
    used_state.capacity_ ≤ config64.max_size ∧
    (reserve config64 (2 ^ 32) used_state).1 = Outcome.length_error ∧
    emitted config64 (Call.reserve (2 ^ 32)) used_state = [] :=
  have h := reserve_length_error_iff config64 used_state (2 ^ 32) (by decide)
  ⟨by decide, h.1.2 (by decide), (h.2 (h.1.2 (by decide))).2⟩

/-- C5: for every stack state with `capacity <= max_size` and every `n`,
`grow(n)` throws the length error if and only if `n > max_size - capacity`, and
then it does so with the state untouched, whatever `capacity + n` would be in
`std::size_t`; otherwise `capacity + n` is within `max_size`, does not wrap
around, and `grow(n)` is `reserve(capacity + n)`: same outcome, same state. -/
theorem grow_length_error_iff (P : Config) (s : State) (n : Nat)
    (hcap : s.capacity_ ≤ P.max_size) :
    ((grow P n s).1 = Outcome.length_error ↔ P.max_size - s.capacity_ < n) ∧
    (P.max_size - s.capacity_ < n → grow P n s = (Outcome.length_error, s)) ∧
    (n ≤ P.max_size - s.capacity_ →
      s.capacity_ + n < 2 ^ P.w ∧ uadd P.w s.capacity_ n = s.capacity_ + n ∧
      grow P n s = reserve P (s.capacity_ + n) s) := by
  have hlt := P.max_size_lt
  rcases grow_cases P n s hcap with ⟨h, e⟩ | ⟨h, h2, ha, e⟩
  · refine ⟨?_, fun _ => e, fun h3 => absurd h3 (by omega)⟩
    rw [e]; simp [h]
  · refine ⟨?_, fun h3 => absurd h3 (by omega), fun _ => ⟨by omega, ha, e⟩⟩
    rw [e, reserve_throws_iff]; omega

/-- C5 at a concrete input: with `max_size() = 2^64 - 1` and capacity 8,
`grow(2^64 - 5)` throws although `8 + (2^64 - 5)` wraps around to 3. -/
theorem grow_length_error_iff_witness :
    used_state.capacity_ ≤ config_max.max_size ∧
    uadd config_max.w used_state.capacity_ (2 ^ 64 - 5) = 3 ∧
    grow config_max (2 ^ 64 - 5) used_state = (Outcome.length_error, used_state) :=
  ⟨by decide, by decide,
    (grow_length_error_iff config_max used_state (2 ^ 64 - 5) (by decide)).2.1 (by decide)⟩

/-- C6: for every stack state with `size <= capacity <= max_size` and every
`n`, if `grow(n)` returns then the new capacity is at least the old capacity
plus `n`, so that `n` more bytes after the `size` bytes in use are within the
new capacity; `size` is unchanged. -/
theorem grow_makes_room (P : Config) (s : State) (n : Nat)
    (hsize : s.size_ ≤ s.capacity_) (hcap : s.capacity_ ≤ P.max_size)
    (hok : (grow P n s).1 = Outcome.returned) :
    s.capacity_ + n ≤ (grow P n s).2.capacity_ ∧ s.size_ + n ≤ (grow P n s).2.capacity_ ∧
    (grow P n s).2.size_ = s.size_ := by
  rcases grow_cases P n s hcap with ⟨_, e⟩ | ⟨_, _, _, e⟩
  · rw [e] at hok; simp at hok
  · rw [e] at hok ⊢
    have h := reserve_returned_ge P _ s hok
    exact ⟨h, by omega, reserve_size P _ s⟩

/-- C6 at a concrete input: `grow(100)` on a block of 8 bytes holding 3. -/
theorem grow_makes_room_witness :
    used_state.size_ ≤ used_state.capacity_ ∧ used_state.capacity_ ≤ config64.max_size ∧
    (grow config64 100 used_state).1 = Outcome.returned ∧
    used_state.capacity_ + 100 ≤ (grow config64 100 used_state).2.capacity_ :=
  ⟨by decide, by decide, by decide,
    (grow_makes_room config64 used_state 100 (by decide) (by decide) (by decide)).1⟩

/-- C7: no-op when already satisfied. For every stack state and every `b`
with `capacity >= b`, `reserve(b)` returns the state it was given, memory and
trace included, and emits no event: no `allocate`, no `deallocate`, no copy,
and `base`, `size` and `capacity` are unchanged. In particular a second
`reserve(b)` right after a `reserve(b)` that returned changes nothing. -/
theorem reserve_noop (P : Config) (s : State) (b : Nat) :
    (b ≤ s.capacity_ →
      reserve P b s = (Outcome.returned, s) ∧ emitted P (Call.reserve b) s = []) ∧
    ((reserve P b s).1 = Outcome.returned →
      reserve P b (reserve P b s).2 = (Outcome.returned, (reserve P b s).2)) := by
  have h1 : ∀ t : State, b ≤ t.capacity_ → reserve P b t = (Outcome.returned, t) := by
    intro t ht
    simp [reserve, ht]
  refine ⟨fun h => ⟨h1 s h, ?_⟩, fun hok => h1 _ (reserve_returned_ge P b s hok)⟩
  simp [emitted, h1 s h]

/-- C7 at a concrete input: `reserve(8)` on a block of 8 bytes, and
`reserve(10)` twice. -/
theorem reserve_noop_witness :
    reserve config64 8 used_state = (Outcome.returned, used_state) ∧
    reserve config64 10 (reserve config64 10 used_state).2 =
      (Outcome.returned, (reserve config64 10 used_state).2) :=
  ⟨((reserve_noop config64 used_state 8).1 (by decide)).1,
    (reserve_noop config64 used_state 10).2 (by decide)⟩

/-- C8: monotonicity. For every initial stack state and every finite sequence
of `reserve` and `grow` calls with arbitrary arguments, each returning or
throwing, the capacity at any point of the sequence is at most the capacity at
any later point; so the capacity after each call is at least the capacity
before it. -/
theorem capacity_monotone (P : Config) (s : State) (pre post : List Call) :
    (run P pre s).capacity_ ≤ (run P (pre ++ post) s).capacity_ := by
  rw [run_append]
  exact run_capacity_mono P post _

/-- C9: state invariant. With `min_capacity <= max_size`, the predicate
`size <= capacity` and `capacity <= max_size` holds for the freshly
constructed stack and is preserved by every call of `reserve` and `grow`, for
every argument, whether the call returns or throws; hence it holds after every
sequence of calls on a fresh stack. -/
theorem invariant_preserved (P : Config) (hmin : P.min_capacity_ ≤ P.max_size) :
    (∀ sp mem, invariant P (fresh sp mem)) ∧
    (∀ c s, invariant P s → invariant P (call P c s).2) ∧
    (∀ sp mem cs, invariant P (run P cs (fresh sp mem))) := by
  have h0 : ∀ sp mem, invariant P (fresh sp mem) := fun _ _ => ⟨le_rfl, Nat.zero_le _⟩
  have hrun : ∀ cs s, invariant P s → invariant P (run P cs s) := by
    intro cs
    induction cs with
    | nil => exact fun _ h => h
    | cons c cs ih => exact fun s h => ih _ (call_invariant P hmin c s h)
  exact ⟨h0, call_invariant P hmin, fun sp mem cs => hrun cs _ (h0 sp mem)⟩

/-- C9 at a concrete input: four calls on a fresh stack, the third of which
throws the length error. -/
theorem invariant_preserved_witness :
    config64.min_capacity_ ≤ config64.max_size ∧
    (call config64 (Call.reserve (2 ^ 40)) (run config64 [Call.reserve 10, Call.grow 100]
      fresh_state)).1 = Outcome.length_error ∧
    invariant config64 (run config64
      [Call.reserve 10, Call.grow 100, Call.reserve (2 ^ 40), Call.grow 1] fresh_state) :=
  ⟨by decide, by decide, (invariant_preserved config64 (by decide)).2.2 bump sample_mem _⟩

/-- C10, as stated, fails when `max_size()` is the largest `std::size_t`: with
a 64-bit `std::size_t` and `max_size() = 2^64 - 1`, the value of
`max_size() + 1` is 0, and `reserve(0)` on a block of 8 bytes returns instead
of throwing the length error. -/
theorem reserve_max_size_counterexample :
    used_state.capacity_ ≤ config_max.max_size ∧
    config_max.max_size + 1 = 2 ^ config_max.w ∧
    uadd config_max.w config_max.max_size 1 = 0 ∧
    (reserve config_max (uadd config_max.w config_max.max_size 1) used_state).1 =
      Outcome.returned ∧
    (reserve config_max (uadd config_max.w config_max.max_size 1) used_state).1 ≠
      Outcome.length_error := by
  decide

/-- C10, amended: for every stack state with `capacity <= max_size`, and with
`min_capacity <= max_size`, `reserve(max_size)` leaves the state unchanged if
the capacity already was `max_size`; otherwise it asks `allocate` for exactly
`max_size` bytes, returns when `allocate` does, and throws only what `allocate`
throws; whenever it returns the capacity is exactly `max_size`. When
`max_size + 1` is a `std::size_t`, `reserve(max_size + 1)` throws the length
error and leaves the state, `capacity` and `base` included, unchanged; when
`max_size` is the largest `std::size_t`, `max_size + 1` is 0 and the call
returns the state it was given. -/
theorem reserve_max_size (P : Config) (s : State)
    (hcap : s.capacity_ ≤ P.max_size) (hmin : P.min_capacity_ ≤ P.max_size) :
    (s.capacity_ = P.max_size → reserve P P.max_size s = (Outcome.returned, s)) ∧
    (s.capacity_ < P.max_size → ∀ b, s.sp_.allocate s.trace P.max_size = Except.ok b →
      reserve P P.max_size s = (Outcome.returned, install s b P.max_size)) ∧
    (s.capacity_ < P.max_size → ∀ e, s.sp_.allocate s.trace P.max_size = Except.error e →
      (reserve P P.max_size s).1 = Outcome.allocate_error e) ∧
    ((reserve P P.max_size s).1 = Outcome.returned →
      (reserve P P.max_size s).2.capacity_ = P.max_size) ∧
    (P.max_size + 1 < 2 ^ P.w →
      uadd P.w P.max_size 1 = P.max_size + 1 ∧
      reserve P (uadd P.w P.max_size 1) s = (Outcome.length_error, s)) ∧
    (P.max_size + 1 = 2 ^ P.w →
      uadd P.w P.max_size 1 = 0 ∧
      reserve P (uadd P.w P.max_size 1) s = (Outcome.returned, s)) := by
  have hn := new_capacity_max_size P s hcap hmin
  have hu := uadd_one P.w P.max_size
  refine ⟨fun h => by simp [reserve, h], fun h b hb => ?_, fun h e he => ?_, fun hok => ?_,
    fun hrep => ⟨hu.1 hrep, ?_⟩, fun hwrap => ⟨hu.2 hwrap, ?_⟩⟩
  · have h1 : ¬ P.max_size ≤ s.capacity_ := by omega
    simp [reserve, h1, hn, hb]
  · have h1 : ¬ P.max_size ≤ s.capacity_ := by omega
    simp [reserve, h1, hn, he]
  · rcases reserve_cases P P.max_size s with
      ⟨h, e⟩ | ⟨_, h, e⟩ | ⟨_, _, x, _, e⟩ | ⟨_, _, b, _, e⟩ <;> rw [e] at hok ⊢ <;>
      simp at hok ⊢
    · omega
    · exact hn
  · rw [hu.1 hrep]
    have h1 : ¬ P.max_size + 1 ≤ s.capacity_ := by omega
    simp [reserve, h1]
  · rw [hu.2 hwrap]
    simp [reserve]

/-- C10 amended, at a concrete input: `reserve(2^32 - 1)` and `reserve(2^32)`
on a block of 8 bytes, with a 64-bit `std::size_t` and `max_size() = 2^32 - 1`. -/
theorem reserve_max_size_witness :
    used_state.capacity_ ≤ config64.max_size ∧ config64.min_capacity_ ≤ config64.max_size ∧
    config64.max_size + 1 < 2 ^ config64.w ∧
    (reserve config64 config64.max_size used_state).1 = Outcome.returned ∧
    (reserve config64 config64.max_size used_state).2.capacity_ = 2 ^ 32 - 1 ∧
    (reserve config64 (uadd config64.w config64.max_size 1) used_state).1 =
      Outcome.length_error :=
  have h := reserve_max_size config64 used_state (by decide) (by decide)
  ⟨by decide, by decide, by decide, by decide, h.2.2.2.1 (by decide),
    by rw [(h.2.2.2.2.1 (by decide)).2]⟩

/-- C11, as stated, fails when `max_size()` is the largest `std::size_t`: with
a 64-bit `std::size_t`, `max_size() = 2^64 - 1` and a fresh stack, the value of
`max_size() - capacity + 1` is 0, and `grow(0)` returns instead of throwing the
length error. -/
theorem grow_to_max_size_counterexample :
    fresh_state.capacity_ ≤ config_max.max_size ∧
    config_max.max_size - fresh_state.capacity_ + 1 = 2 ^ config_max.w ∧
    uadd config_max.w (config_max.max_size - fresh_state.capacity_) 1 = 0 ∧
    (grow config_max (uadd config_max.w (config_max.max_size - fresh_state.capacity_) 1)
      fresh_state).1 = Outcome.returned ∧
    (grow config_max (uadd config_max.w (config_max.max_size - fresh_state.capacity_) 1)
      fresh_state).1 ≠ Outcome.length_error := by
  decide

/-- C11, amended: for every stack state with `capacity <= max_size`, and with
`min_capacity <= max_size`, `grow(max_size - capacity)` is
`reserve(max_size)`: it never throws the length error, it throws only what
`allocate` throws when asked for exactly `max_size` bytes, and whenever it
returns the capacity is `max_size`. When `max_size - capacity + 1` is a
`std::size_t`, `grow(max_size - capacity + 1)` throws the length error and
leaves the state, `capacity` and `base` included, unchanged; when it is not,
which is when the capacity is 0 and `max_size` is the largest `std::size_t`,
its value is 0 and the call returns the state it was given. -/
theorem grow_to_max_size (P : Config) (s : State)
    (hcap : s.capacity_ ≤ P.max_size) (hmin : P.min_capacity_ ≤ P.max_size) :
    grow P (P.max_size - s.capacity_) s = reserve P P.max_size s ∧
    (grow P (P.max_size - s.capacity_) s).1 ≠ Outcome.length_error ∧
    (∀ e, (grow P (P.max_size - s.capacity_) s).1 = Outcome.allocate_error e →
      s.sp_.allocate s.trace P.max_size = Except.error e) ∧
    (∀ b, s.sp_.allocate s.trace P.max_size = Except.ok b →
      (grow P (P.max_size - s.capacity_) s).1 = Outcome.returned) ∧
    ((grow P (P.max_size - s.capacity_) s).1 = Outcome.returned →
      (grow P (P.max_size - s.capacity_) s).2.capacity_ = P.max_size) ∧
    (P.max_size - s.capacity_ + 1 < 2 ^ P.w →
      uadd P.w (P.max_size - s.capacity_) 1 = P.max_size - s.capacity_ + 1 ∧
      grow P (uadd P.w (P.max_size - s.capacity_) 1) s = (Outcome.length_error, s)) ∧
    (P.max_size - s.capacity_ + 1 = 2 ^ P.w →
      s.capacity_ = 0 ∧ uadd P.w (P.max_size - s.capacity_) 1 = 0 ∧
      grow P (uadd P.w (P.max_size - s.capacity_) 1) s = (Outcome.returned, s)) := by
  have hn := new_capacity_max_size P s hcap hmin
  have hlt := P.max_size_lt
  have hu := uadd_one P.w (P.max_size - s.capacity_)
  have hg : grow P (P.max_size - s.capacity_) s = reserve P P.max_size s := by
    rcases grow_cases P (P.max_size - s.capacity_) s hcap with ⟨h, _⟩ | ⟨_, _, _, e⟩
    · omega
    · rw [e]; congr 1; omega
  have hlast : grow P (P.max_size - s.capacity_ + 1) s = (Outcome.length_error, s) := by
    rcases grow_cases P (P.max_size - s.capacity_ + 1) s hcap with ⟨_, e⟩ | ⟨h, _⟩
    · exact e
    · omega
  have hzero : grow P 0 s = (Outcome.returned, s) := by
    rcases grow_cases P 0 s hcap with ⟨h, _⟩ | ⟨_, _, _, e⟩
    · omega
    · rw [e]; simp [reserve]
  rw [hg]
  refine ⟨rfl, ?_, ?_, ?_, ?_, fun hrep => ⟨hu.1 hrep, by rw [hu.1 hrep]; exact hlast⟩,
    fun hwrap => ⟨by omega, hu.2 hwrap, by rw [hu.2 hwrap]; exact hzero⟩⟩
  · rw [Ne, reserve_throws_iff]; omega
  · intro e he
    rcases reserve_cases P P.max_size s with
      ⟨_, h⟩ | ⟨_, _, h⟩ | ⟨_, _, x, hx, h⟩ | ⟨_, _, b, _, h⟩ <;> rw [h] at he <;> simp at he
    rw [hn] at hx
    rw [← he]; exact hx
  · intro b hb
    rcases reserve_cases P P.max_size s with
      ⟨_, h⟩ | ⟨_, h0, h⟩ | ⟨_, _, x, hx, h⟩ | ⟨_, _, b1, _, h⟩ <;> rw [h]
    · omega
    · rw [hn, hb] at hx; simp at hx
  · intro hok
    rcases reserve_cases P P.max_size s with
      ⟨h0, h⟩ | ⟨_, _, h⟩ | ⟨_, _, x, _, h⟩ | ⟨_, _, b, _, h⟩ <;> rw [h] at hok ⊢ <;>
      simp at hok ⊢
    · omega
    · exact hn

/-- C11 amended, at a concrete input: a block of 8 bytes, a 64-bit
`std::size_t` and `max_size() = 2^32 - 1`. -/
theorem grow_to_max_size_witness :
    used_state.capacity_ ≤ config64.max_size ∧ config64.min_capacity_ ≤ config64.max_size ∧
    config64.max_size - used_state.capacity_ + 1 < 2 ^ config64.w ∧
    (grow config64 (config64.max_size - used_state.capacity_) used_state).1 = Outcome.returned ∧
    (grow config64 (config64.max_size - used_state.capacity_) used_state).2.capacity_ =
      2 ^ 32 - 1 ∧
    (grow config64 (uadd config64.w (config64.max_size - used_state.capacity_) 1)
      used_state).1 = Outcome.length_error :=
  have h := grow_to_max_size config64 used_state (by decide) (by decide)
  ⟨by decide, by decide, by decide, by decide, h.2.2.2.2.1 (by decide),
    by rw [(h.2.2.2.2.2.1 (by decide)).2]⟩

/-- C13: memory-resource discipline. Every `reserve` call that reallocates
emits exactly one `allocate`, for exactly the byte count that becomes the new
capacity, followed, if and only if a previous buffer existed, by the copy and
then exactly one `deallocate` of the old `base` with the old capacity. Hence
over any sequence of `reserve` and `grow` calls starting from a fresh stack
every `deallocate` names, with exactly the size it was allocated with, a block
that is outstanding at that moment; a block once deallocated is no longer
outstanding, so none is deallocated twice. -/
theorem resource_discipline (P : Config) :
    (∀ s bytes, (reserve P bytes s).1 = Outcome.returned → s.capacity_ < bytes →
      emitted P (Call.reserve bytes) s =
        Event.allocated (reserve P bytes s).2.capacity_ (reserve P bytes s).2.base_ ::
          (if s.base_ ≠ 0 then
            [Event.memcpy (reserve P bytes s).2.base_ s.base_ s.size_,
              Event.deallocate s.base_ s.capacity_]
          else [])) ∧
    (∀ sp mem cs, disciplined (run P cs (fresh sp mem)).trace = true) := by
  refine ⟨fun s bytes hok hlt => ?_, fun sp mem cs => run_disciplined P cs _ rfl (fun h => absurd rfl h)⟩
  rcases reserve_cases P bytes s with
    ⟨h, _⟩ | ⟨_, _, e⟩ | ⟨_, _, x, _, e⟩ | ⟨_, _, b, _, e⟩
  · omega
  · rw [e] at hok; simp at hok
  · rw [e] at hok; simp at hok
  · rw [emitted_install P (Call.reserve bytes) s b _ e, e]
    simp

/-- C13 at a concrete input: `reserve(10)`, `grow(100)`, `reserve(2^40)` and
`grow(1)` on a fresh stack. -/
theorem resource_discipline_witness :
    (run config64 [Call.reserve 10, Call.grow 100] fresh_state).trace =
      [Event.allocated 64 1, Event.allocated 164 2, Event.memcpy 2 1 0,
        Event.deallocate 1 64] ∧
    disciplined (run config64
      [Call.reserve 10, Call.grow 100, Call.reserve (2 ^ 40), Call.grow 1] fresh_state).trace
      = true :=
  ⟨by decide, (resource_discipline config64).2 bump sample_mem _⟩

/-- C14: minimum floor. On a fresh stack, for every request `b` with
`1 <= b <= min_capacity`, a `reserve(b)` that returns leaves the capacity equal
to `min_capacity`, so `reserve(1)` does not give capacity 1. More generally
every `reserve` that reallocates leaves `capacity >= min_capacity`: on every
stack reached from a fresh one by `reserve` and `grow` calls, whatever the
constants, and on any state at all when `min_capacity <= max_size` or the
capacity before the call is at most `max_size - capacity`. -/
theorem minimum_floor (P : Config) :
    (∀ sp mem b, 1 ≤ b → b ≤ P.min_capacity_ →
      (reserve P b (fresh sp mem)).1 = Outcome.returned →
      (reserve P b (fresh sp mem)).2.capacity_ = P.min_capacity_) ∧
    (∀ s bytes, (reserve P bytes s).1 = Outcome.returned → s.capacity_ < bytes →
      (P.min_capacity_ ≤ P.max_size ∨ s.capacity_ ≤ P.max_size - s.capacity_) →
      P.min_capacity_ ≤ (reserve P bytes s).2.capacity_) ∧
    (∀ sp mem cs bytes,
      (reserve P bytes (run P cs (fresh sp mem))).1 = Outcome.returned →
      (run P cs (fresh sp mem)).capacity_ < bytes →
      P.min_capacity_ ≤ (reserve P bytes (run P cs (fresh sp mem))).2.capacity_) := by
  have general : ∀ s bytes, (reserve P bytes s).1 = Outcome.returned → s.capacity_ < bytes →
      (P.min_capacity_ ≤ P.max_size ∨ s.capacity_ ≤ P.max_size - s.capacity_) →
      P.min_capacity_ ≤ (reserve P bytes s).2.capacity_ := by
    intro s bytes hok hlt h
    obtain ⟨h2, b, _, e⟩ := reserve_reallocated P s bytes hok hlt
    rw [e]
    exact new_capacity_ge_min P s bytes (by omega) h
  refine ⟨fun sp mem b h1 h2 hok => ?_, general, fun sp mem cs bytes hok hlt => ?_⟩
  · obtain ⟨h3, b1, _, e⟩ := reserve_reallocated P (fresh sp mem) b hok (by simp [fresh]; omega)
    rw [e, install_capacity, new_capacity_eq P _ _ (Nat.zero_le _)]
    simp [fresh]
    omega
  · obtain ⟨h2, _, _, _⟩ := reserve_reallocated P _ bytes hok hlt
    have hk := run_floor P cs (fresh sp mem) (fun _ => Or.inl rfl)
    apply general _ _ hok hlt
    by_cases hm : P.min_capacity_ ≤ P.max_size
    · exact Or.inl hm
    · rcases hk (by omega) with h0 | h0
      · right; omega
      · omega

/-- C14 at a concrete input: `reserve(1)` on a fresh stack with
`min_capacity_ = 64`, and `reserve(65)` after it. -/
theorem minimum_floor_witness :
    (reserve config64 1 fresh_state).1 = Outcome.returned ∧
    (reserve config64 1 fresh_state).2.capacity_ = 64 ∧
    (reserve config64 65 (run config64 [Call.reserve 1] fresh_state)).2.capacity_ = 128 ∧
    config64.min_capacity_ ≤
      (reserve config64 65 (run config64 [Call.reserve 1] fresh_state)).2.capacity_ :=
  ⟨by decide,
    (minimum_floor config64).1 bump sample_mem 1 (by decide) (by decide) (by decide),
    by decide,
    (minimum_floor config64).2.2 bump sample_mem [Call.reserve 1] 65 (by decide) (by decide)⟩

/-- C15: base/capacity consistency. For a memory resource whose `allocate`
never returns a null pointer, the predicate "`base` is null if and only if
`capacity = 0`" holds for the fresh stack and is preserved by every call of
`reserve` and `grow`, whether it returns or throws; hence it holds after every
sequence of calls on a fresh stack. -/
theorem base_null_iff_capacity_zero (P : Config) (sp : memory_resource)
    (hsp : never_null sp) :
    (∀ mem, base_consistent (fresh sp mem)) ∧
    (∀ c s, s.sp_ = sp → base_consistent s → base_consistent (call P c s).2) ∧
    (∀ mem cs, base_consistent (run P cs (fresh sp mem))) := by
  have h0 : ∀ mem, base_consistent (fresh sp mem) := fun _ => ⟨fun _ => rfl, fun _ => rfl⟩
  have hstep : ∀ c s, s.sp_ = sp → base_consistent s → base_consistent (call P c s).2 := by
    intro c s hs h
    rcases call_shape P c s with e | e | ⟨n, x, _, e⟩ | ⟨n, b, hn, _, hb, e⟩ <;> rw [e]
    · exact h
    · exact h
    · exact h
    · have hb0 : b ≠ 0 := hsp _ _ _ (hs ▸ hb)
      simp only [base_consistent, install_base, install_capacity]
      constructor
      · intro h1; exact absurd h1 hb0
      · intro h1; omega
  have hrun : ∀ cs s, s.sp_ = sp → base_consistent s → base_consistent (run P cs s) := by
    intro cs
    induction cs with
    | nil => exact fun _ _ h => h
    | cons c cs ih =>
      exact fun s hs h => ih _ ((call_sp P c s).trans hs) (hstep c s hs h)
  exact ⟨h0, hstep, fun mem cs => hrun cs _ rfl (h0 mem)⟩

/-- C15 at a concrete input: the resource `bump`, whose pointers are 1, 2, 3,
..., and three calls on a fresh stack. -/
theorem base_null_iff_capacity_zero_witness :
    never_null bump ∧
    base_consistent (run config64 [Call.reserve 10, Call.reserve (2 ^ 40), Call.grow 1]
      fresh_state) :=
  have hb : never_null bump := by
    intro t n b h
    have hb : t.length + 1 = b := by simpa [bump] using h
    omega
  ⟨hb, (base_null_iff_capacity_zero config64 bump hb).2.2 sample_mem _⟩

/-- C16: exact new capacity. For every stack state with
`capacity <= max_size`, with `min_capacity <= max_size`, and every request
`bytes` with `capacity < bytes <= max_size`, a `reserve(bytes)` that returns
has asked `allocate` for, and set the capacity to,
`max(bytes, min_capacity, hint)`, where `hint` is `capacity * 2` with the low
bit cleared when `capacity <= max_size - capacity`, and `max_size` otherwise. -/
theorem reserve_exact_capacity (P : Config) (s : State) (bytes : Nat)
    (hcap : s.capacity_ ≤ P.max_size) (hmin : P.min_capacity_ ≤ P.max_size)
    (h1 : s.capacity_ < bytes) (h2 : bytes ≤ P.max_size)
    (hok : (reserve P bytes s).1 = Outcome.returned) :
    (reserve P bytes s).2.capacity_ =
      max bytes (max P.min_capacity_ (spec_growth_hint P s.capacity_)) ∧
    ∃ b, s.sp_.allocate s.trace
        (max bytes (max P.min_capacity_ (spec_growth_hint P s.capacity_))) = Except.ok b ∧
      reserve P bytes s = (Outcome.returned,
        install s b (max bytes (max P.min_capacity_ (spec_growth_hint P s.capacity_)))) := by
  obtain ⟨_, b, hb, e⟩ := reserve_reallocated P s bytes hok h1
  rw [new_capacity_spec P s bytes hcap hmin h2] at hb e
  exact ⟨by rw [e, install_capacity], b, hb, e⟩

/-- C16 at a concrete input: `reserve(10)` on a block of 8 bytes, with
`min_capacity_ = 64`; the hint is 16. -/
theorem reserve_exact_capacity_witness :
    used_state.capacity_ ≤ config64.max_size ∧ config64.min_capacity_ ≤ config64.max_size ∧
    (reserve config64 10 used_state).1 = Outcome.returned ∧
    spec_growth_hint config64 used_state.capacity_ = 16 ∧
    (reserve config64 10 used_state).2.capacity_ = max 10 (max 64 16) :=
  ⟨by decide, by decide, by decide, by decide,
    (reserve_exact_capacity config64 used_state 10 (by decide) (by decide) (by decide)
      (by decide) (by decide)).1⟩

/-- C17: the concrete scenario. With `min_capacity = 64`, `max_size = 2^32 - 1`
and a memory resource whose `allocate` always returns a buffer, on a fresh
stack `reserve(10)` returns and leaves `capacity == 64` with `base` not null,
having emitted one `allocate` of 64 bytes and nothing else: nothing is copied
or deallocated. Then `grow(100)` is `reserve(164)`, whose doubling hint is 128,
and it returns and leaves `capacity == 164`. Then `reserve(164)` returns the
state it was given, and the capacity is still 164. -/
theorem concrete_scenario (P : Config) (sp : memory_resource) (mem : Nat → Nat → Nat)
    (hmax : P.max_size = 2 ^ 32 - 1) (hmin : P.min_capacity_ = 64)
    (hsp : always_succeeds sp) :
    (reserve P 10 (fresh sp mem)).1 = Outcome.returned ∧
    (scenario_1 P sp mem).capacity_ = 64 ∧ (scenario_1 P sp mem).base_ ≠ 0 ∧
    emitted P (Call.reserve 10) (fresh sp mem) =
      [Event.allocated 64 (scenario_1 P sp mem).base_] ∧
    grow P 100 (scenario_1 P sp mem) = reserve P 164 (scenario_1 P sp mem) ∧
    umul P.w (scenario_1 P sp mem).capacity_ 2 &&& not_one P.w = 128 ∧
    (grow P 100 (scenario_1 P sp mem)).1 = Outcome.returned ∧
    (scenario_2 P sp mem).capacity_ = 164 ∧
    reserve P 164 (scenario_2 P sp mem) = (Outcome.returned, scenario_2 P sp mem) ∧
    (reserve P 164 (scenario_2 P sp mem)).2.capacity_ = 164 := by
  have hM : (2 : Nat) ^ 32 - 1 = 4294967295 := by norm_num
  rw [hM] at hmax
  -- first step
  have n1 : new_capacity P (fresh sp mem) 10 = 64 := by
    rw [new_capacity_eq P _ _ (Nat.zero_le _)]
    simp [fresh, hmin]
  obtain ⟨b1, hb1, hb1n⟩ := hsp ([] : List Event) 64
  have e1 : reserve P 10 (fresh sp mem) = (Outcome.returned, install (fresh sp mem) b1 64) := by
    have := reserve_of_allocate_ok P (fresh sp mem) 10 b1 (by simp [fresh]) (by omega)
      (by rw [n1]; exact hb1)
    rw [n1] at this
    exact this
  have s1 : scenario_1 P sp mem = install (fresh sp mem) b1 64 := by
    unfold scenario_1; rw [e1]
  have c1 : (scenario_1 P sp mem).capacity_ = 64 := by rw [s1, install_capacity]
  have hc1 : (scenario_1 P sp mem).capacity_ ≤ P.max_size := by omega
  have sp1 : (scenario_1 P sp mem).sp_ = sp := by rw [s1, install_sp]; rfl
  -- second step
  have g2 : grow P 100 (scenario_1 P sp mem) = reserve P 164 (scenario_1 P sp mem) := by
    rcases grow_cases P 100 (scenario_1 P sp mem) hc1 with ⟨h, _⟩ | ⟨_, _, _, e⟩
    · omega
    · rw [e, c1]
  have n2 : new_capacity P (scenario_1 P sp mem) 164 = 164 := by
    rw [new_capacity_eq P _ _ hc1, c1]
    have hle : (64 : Nat) ≤ P.max_size - 64 := by omega
    simp [hle, hmin]
  obtain ⟨b2, hb2, _⟩ := hsp (scenario_1 P sp mem).trace 164
  have e2 : reserve P 164 (scenario_1 P sp mem) =
      (Outcome.returned, install (scenario_1 P sp mem) b2 164) := by
    have := reserve_of_allocate_ok P (scenario_1 P sp mem) 164 b2 (by omega) (by omega)
      (by rw [n2, sp1]; exact hb2)
    rw [n2] at this
    exact this
  have s2 : scenario_2 P sp mem = install (scenario_1 P sp mem) b2 164 := by
    unfold scenario_2; rw [g2, e2]
  have c2 : (scenario_2 P sp mem).capacity_ = 164 := by rw [s2, install_capacity]
  have e3 : reserve P 164 (scenario_2 P sp mem) = (Outcome.returned, scenario_2 P sp mem) := by
    simp [reserve, c2]
  refine ⟨by rw [e1], c1, by rw [s1, install_base]; exact hb1n, ?_, g2, ?_, by rw [g2, e2], c2,
    e3, by rw [e3]; exact c2⟩
  · have := emitted_install P (Call.reserve 10) (fresh sp mem) b1 64 e1
    rw [this, s1, install_base]
    simp [fresh]
  · rw [c1, hint_exact P 64 (by omega)]

/-- C17 at a concrete input: a 64-bit `std::size_t` and the resource `bump`. -/
theorem concrete_scenario_witness :
    config64.max_size = 2 ^ 32 - 1 ∧ config64.min_capacity_ = 64 ∧ always_succeeds bump ∧
    (scenario_1 config64 bump sample_mem).capacity_ = 64 ∧
    (scenario_2 config64 bump sample_mem).capacity_ = 164 :=
  have hb : always_succeeds bump := fun t _ => ⟨t.length + 1, rfl, by omega⟩
  have h := concrete_scenario config64 bump sample_mem (by decide) (by decide) hb
  ⟨by decide, by decide, hb, h.2.1, h.2.2.2.2.2.2.2.1⟩

/-- C18: for every stack state with `capacity <= max_size` and every `n >= 1`
with `n <= max_size - capacity`, a `grow(n)` that returns has reallocated,
whatever `size` is: it has made exactly one call of `allocate` and the capacity
is strictly larger than before. Only `grow(0)` is a no-op: it returns the state
it was given. -/
theorem grow_always_reallocates (P : Config) (s : State) (n : Nat)
    (hcap : s.capacity_ ≤ P.max_size) (hn : 1 ≤ n) (hle : n ≤ P.max_size - s.capacity_)
    (hok : (grow P n s).1 = Outcome.returned) :
    allocate_calls (emitted P (Call.grow n) s) = 1 ∧
    s.capacity_ < (grow P n s).2.capacity_ ∧
    emitted P (Call.grow n) s ≠ [] ∧
    grow P 0 s = (Outcome.returned, s) := by
  have h0 : grow P 0 s = (Outcome.returned, s) := by
    rcases grow_cases P 0 s hcap with ⟨h, _⟩ | ⟨_, _, _, e⟩
    · omega
    · rw [e]; simp [reserve]
  rcases grow_cases P n s hcap with ⟨h, _⟩ | ⟨_, _, _, e⟩
  · omega
  · rw [e] at hok
    obtain ⟨_, b, _, e2⟩ := reserve_reallocated P s (s.capacity_ + n) hok (by omega)
    have hc : call P (Call.grow n) s =
        (Outcome.returned, install s b (new_capacity P s (s.capacity_ + n))) := by
      rw [call_grow, e, e2]
    have hb := new_capacity_bounds P s (s.capacity_ + n) (by omega) (by omega)
    rw [emitted_install P (Call.grow n) s b _ hc, e, e2]
    refine ⟨?_, by simp only [install_capacity]; omega, by simp, h0⟩
    by_cases hbase : s.base_ = 0 <;> simp [allocate_calls, hbase, Event.is_allocate]

/-- C18 at a concrete input: `grow(1)` on a block of 8 bytes of which 3 are in
use. -/
theorem grow_always_reallocates_witness :
    used_state.capacity_ ≤ config64.max_size ∧
    (grow config64 1 used_state).1 = Outcome.returned ∧
    used_state.size_ + 1 ≤ used_state.capacity_ ∧
    emitted config64 (Call.grow 1) used_state =
      [Event.allocated 64 2, Event.memcpy 2 5 3, Event.deallocate 5 8] ∧
    allocate_calls (emitted config64 (Call.grow 1) used_state) = 1 :=
  ⟨by decide, by decide, by decide, by decide,
    (grow_always_reallocates config64 used_state 1 (by decide) (by decide) (by decide)
      (by decide)).1⟩

/-- C19: geometric growth of `reserve`. With `1 <= min_capacity <= max_size`,
after any sequence of calls on a fresh stack in which `k + 1` calls have
reallocated, the capacity is at least `min(2^k * min_capacity, max_size)`;
each reallocation from a capacity `c <= max_size` yields a capacity of at least
`2c` when `2c <= max_size` and exactly `max_size` otherwise; and the number of
reallocations behind a capacity `C` is at most `log2(C / min_capacity) + 2`. -/
theorem geometric_growth (P : Config) (h1 : 1 ≤ P.min_capacity_)
    (hmin : P.min_capacity_ ≤ P.max_size) :
    (∀ sp mem cs k, reallocations (run P cs (fresh sp mem)).trace = k + 1 →
      min (2 ^ k * P.min_capacity_) P.max_size ≤ (run P cs (fresh sp mem)).capacity_) ∧
    (∀ s bytes, s.capacity_ ≤ P.max_size → (reserve P bytes s).1 = Outcome.returned →
      s.capacity_ < bytes →
      (2 * s.capacity_ ≤ P.max_size → 2 * s.capacity_ ≤ (reserve P bytes s).2.capacity_) ∧
      (P.max_size < 2 * s.capacity_ → (reserve P bytes s).2.capacity_ = P.max_size)) ∧
    (∀ sp mem cs, reallocations (run P cs (fresh sp mem)).trace ≤
      Nat.log 2 ((run P cs (fresh sp mem)).capacity_ / P.min_capacity_) + 2) := by
  have hfresh : ∀ sp mem k, reallocations (fresh sp mem).trace = k + 1 →
      min (2 ^ k * P.min_capacity_) P.max_size ≤ (fresh sp mem).capacity_ ∧
      ∀ j, k = j + 1 → 2 ^ j * P.min_capacity_ < (fresh sp mem).capacity_ := by
    intro sp mem k hk
    simp [fresh, reallocations] at hk
  refine ⟨fun sp mem cs k hk =>
      (run_geometric P hmin cs _ (Nat.zero_le _) (hfresh sp mem) k hk).1,
    fun s bytes hcap hok hlt => ?_, fun sp mem cs => ?_⟩
  · obtain ⟨_, b, _, e⟩ := reserve_reallocated P s bytes hok hlt
    rw [e]
    exact new_capacity_doubles P s bytes hcap
  · have hg := run_geometric P hmin cs _ (Nat.zero_le _) (hfresh sp mem)
    generalize run P cs (fresh sp mem) = t at hg ⊢
    rcases hr : reallocations t.trace with _ | k
    · exact Nat.zero_le _
    · cases k with
      | zero => omega
      | succ j =>
        have hlt := (hg (j + 1) hr).2 j rfl
        have hdiv : 2 ^ j ≤ t.capacity_ / P.min_capacity_ :=
          (Nat.le_div_iff_mul_le (by omega)).mpr hlt.le
        have := Nat.le_log_of_pow_le (by norm_num : 1 < 2) hdiv
        omega

/-- C19 at a concrete input: three reallocations on a fresh stack with
`min_capacity_ = 64`, after which the capacity is 256. -/
theorem geometric_growth_witness :
    1 ≤ config64.min_capacity_ ∧ config64.min_capacity_ ≤ config64.max_size ∧
    reallocations (run config64 [Call.reserve 1, Call.reserve 65, Call.reserve 129]
      fresh_state).trace = 2 + 1 ∧
    (run config64 [Call.reserve 1, Call.reserve 65, Call.reserve 129]
      fresh_state).capacity_ = 256 ∧
    min (2 ^ 2 * config64.min_capacity_) config64.max_size ≤
      (run config64 [Call.reserve 1, Call.reserve 65, Call.reserve 129]
        fresh_state).capacity_ :=
  ⟨by decide, by decide, by decide, by decide,
    (geometric_growth config64 (by decide) (by decide)).1 bump sample_mem _ 2 (by decide)⟩

/-- C20: the low-bit mask is redundant. For every capacity with
`capacity <= max_size - capacity`, the product `capacity * 2` does not wrap
around in `std::size_t` and `(capacity * 2) & ~1` equals it; and for every
state and request `reserve`, and `grow` with it, has the outcome and leaves the
state, memory and trace included, of the variant that uses plain doubling
capped at `max_size`. -/
theorem mask_redundant (P : Config) :
    (∀ c, c ≤ P.max_size - c →
      c * 2 < 2 ^ P.w ∧ umul P.w c 2 = c * 2 ∧ umul P.w c 2 &&& not_one P.w = c * 2) ∧
    (∀ c, umul P.w c 2 &&& not_one P.w = umul P.w c 2) ∧
    (∀ s bytes, reserve P bytes s = reserve_plain P bytes s) ∧
    (∀ s n, grow P n s = grow_plain P n s) := by
  refine ⟨fun c h => ?_, hint_eq P.w, fun s bytes => reserve_plain_eq P bytes s, fun s n => ?_⟩
  · have hlt := P.max_size_lt
    have h2 : c * 2 < 2 ^ P.w := by omega
    exact ⟨h2, Nat.mod_eq_of_lt h2, hint_exact P c h⟩
  · unfold grow grow_plain
    simp only [reserve_plain_eq]

/-- C20 at a concrete input: capacity `2^31 - 1` with `max_size() = 2^32 - 1`,
and `reserve(10)` on a block of 8 bytes. -/
theorem mask_redundant_witness :
    2 ^ 31 - 1 ≤ config64.max_size - (2 ^ 31 - 1) ∧
    umul config64.w (2 ^ 31 - 1) 2 &&& not_one config64.w = (2 ^ 31 - 1) * 2 ∧
    (reserve_plain config64 10 used_state).2.capacity_ = 64 ∧
    reserve config64 10 used_state = reserve_plain config64 10 used_state :=
  have h := mask_redundant config64
  ⟨by decide, (h.1 (2 ^ 31 - 1) (by decide)).2.2, by decide, h.2.2.1 used_state 10⟩

/-- C12, as stated, fails: no constant `C` bounds the number of calls of
`allocate` made by `N` returning calls `grow(1)` on a fresh stack by
`C * (log2 N + 1)`. -/
theorem amortized_growth_counterexample : ¬ amortized_log_bound := by
  rintro ⟨C, h⟩
  have hb : always_succeeds bump := fun t _ => ⟨t.length + 1, rfl, by omega⟩
  have hall := grow_one_all_returned (roomy_config (2 ^ (4 * C + 2))) le_rfl bump hb
    (2 ^ (4 * C + 2)) (fresh bump sample_mem) rfl
    (by
      show (0 + 1) * 2 ^ 2 ^ (4 * C + 2) ≤ 2 ^ (2 ^ (4 * C + 2) + 1) - 1 + 1
      have hpos : 1 ≤ 2 ^ (2 ^ (4 * C + 2) + 1) := Nat.one_le_two_pow
      have hle : 2 ^ 2 ^ (4 * C + 2) ≤ 2 ^ (2 ^ (4 * C + 2) + 1) :=
        Nat.pow_le_pow_right (by norm_num) (by omega)
      omega)
  have hcount := grow_one_count (roomy_config (2 ^ (4 * C + 2)))
    (show 1 ≤ 2 ^ (2 ^ (4 * C + 2) + 1) - 1 by
      have : 2 ^ 1 ≤ 2 ^ (2 ^ (4 * C + 2) + 1) :=
        Nat.pow_le_pow_right (by norm_num) (Nat.le_add_left 1 _)
      omega)
    (2 ^ (4 * C + 2)) (fresh bump sample_mem) ⟨le_rfl, Nat.zero_le _⟩ hall
  have hbound := h (roomy_config (2 ^ (4 * C + 2))) bump sample_mem (2 ^ (4 * C + 2)) hall
  rw [hcount] at hbound
  have hlt := pow_exceeds_log_bound C
  have h0 : allocate_calls (fresh bump sample_mem).trace = 0 := rfl
  omega

/-- C12, amended: in a trace of `N` sequential `grow(1)` calls starting from a
fresh stack, with `min_capacity <= max_size` and every call returning, every
call reallocates: the number of calls of `allocate` is exactly `N`. -/
theorem grow_one_allocations (P : Config) (sp : memory_resource) (mem : Nat → Nat → Nat)
    (N : Nat) (hmin : P.min_capacity_ ≤ P.max_size)
    (hall : ∀ o ∈ outcomes P (List.replicate N (Call.grow 1)) (fresh sp mem),
      o = Outcome.returned) :
    allocate_calls (run P (List.replicate N (Call.grow 1)) (fresh sp mem)).trace = N := by
  have h := grow_one_count P hmin N (fresh sp mem) ⟨le_rfl, Nat.zero_le _⟩ hall
  have h0 : allocate_calls (fresh sp mem).trace = 0 := rfl
  omega

/-- C12 amended, at a concrete input: 20 calls `grow(1)` on a fresh stack with
`max_size() = 2^32 - 1` all return and make 20 calls of `allocate`. -/
theorem grow_one_allocations_witness :
    config64.min_capacity_ ≤ config64.max_size ∧
    (∀ o ∈ outcomes config64 (List.replicate 20 (Call.grow 1)) fresh_state,
      o = Outcome.returned) ∧
    allocate_calls (run config64 (List.replicate 20 (Call.grow 1)) fresh_state).trace = 20 :=
  have hall : ∀ o ∈ outcomes config64 (List.replicate 20 (Call.grow 1)) fresh_state,
      o = Outcome.returned := by decide
  ⟨by decide, hall, grow_one_allocations config64 bump sample_mem 20 (by decide) hall⟩

end RawStack
